import Mathlib

/-!
Verification of the XML utility core of the repository (src/src/xml_utils.py,
class XMLUtils) against its natural-language specification.

The tree model is a shallow embedding of lxml element trees as used by the
code: a node has a tag, an attribute dictionary (unique keys, insertion
ordered), an optional direct text, and an ordered list of children.  Parent
links are represented by addressing a node through its position (the list of
child indices from the root), which is how lxml's getparent chain is
determined for a node inside a tree.

Python string and dict primitives used by the code are embedded explicitly:
str.strip, the substring test, dict lookup / item assignment / update and
decimal rendering of integers.
-/

/-- Whitespace set of Python str.strip (string.whitespace). -/
def isWS (c : Char) : Bool :=
  c == ' ' || c == '\t' || c == '\n' || c == '\r' || c == '\x0b' || c == '\x0c'

/-- Drop leading and trailing whitespace from a character list. -/
def trimChars (l : List Char) : List Char :=
  ((l.dropWhile isWS).reverse.dropWhile isWS).reverse

/-- Python str.strip(). -/
def pyStrip (s : String) : String := ⟨trimChars s.data⟩

/-- Truthiness of `t and t.strip()` for an optional text (None, empty and
blank strings are falsy). -/
def isNonBlank (o : Option String) : Bool := !(pyStrip (o.getD "")).isEmpty

/-- Truthiness of an optional string argument (None and empty are falsy). -/
def isTruthy (o : Option String) : Bool := !(o.getD "").isEmpty

/-- Python dict lookup (first occurrence; key lists are kept duplicate free,
matching dict semantics). -/
def getVal {α : Type} : List (String × α) → String → Option α
  | [], _ => none
  | kv :: rest, key => if kv.1 == key then some kv.2 else getVal rest key

/-- Python dict item assignment on an existing key: the value is replaced in
place, insertion position is kept. -/
def setVal {α : Type} : List (String × α) → String → α → List (String × α)
  | [], _, _ => []
  | kv :: rest, key, v => if kv.1 == key then (key, v) :: rest else kv :: setVal rest key v

/-- Python dict.update: existing keys are overwritten in place, new keys are
appended in the update's order. -/
def dictUpdate {α : Type} (base upd : List (String × α)) : List (String × α) :=
  upd.foldl
    (fun acc kv => if (getVal acc kv.1).isSome then setVal acc kv.1 kv.2 else acc ++ [kv])
    base

/-- Whether the first list is a prefix of the second. -/
def prefixOfChars : List Char → List Char → Bool
  | [], _ => true
  | _ :: _, [] => false
  | a :: as', b :: bs => a == b && prefixOfChars as' bs

/-- Substring test on character lists (Python `needle in hay`). -/
def containsChars (needle : List Char) : List Char → Bool
  | [] => prefixOfChars needle []
  | c :: t => prefixOfChars needle (c :: t) || containsChars needle t

/-- Python substring test `needle in hay`. -/
def strContains (hay needle : String) : Bool := containsChars needle.data hay.data

/-- Decimal digit character. -/
def digitChar (n : Nat) : Char := Char.ofNat (48 + n)

/-- Decimal digits of a natural number, most significant first.  Fueled so
that the definition is structural (the fuel is always sufficient). -/
def decCharsCore : Nat → Nat → List Char
  | 0, _ => []
  | fuel + 1, n =>
    if n < 10 then [digitChar n]
    else decCharsCore fuel (n / 10) ++ [digitChar (n % 10)]

/-- Decimal digits of a natural number. -/
def decChars (n : Nat) : List Char := decCharsCore (n + 1) n

/-- Python decimal rendering of a natural number. -/
def natStr (n : Nat) : String := ⟨decChars n⟩

/-- Python str.join with separator "/" (as in "/".join(path_parts)). -/
def joinSlash : List String → String
  | [] => ""
  | [p] => p
  | p :: rest => p ++ "/" ++ joinSlash rest

/-- The element tree: tag, attribute dictionary (unique keys, insertion
ordered), optional direct text, ordered children.  This is the Node model of
the specification and the shape of the lxml elements the code manipulates. -/
inductive Node where
  | mk (tag : String) (attrib : List (String × String)) (text : Option String)
      (children : List Node)

def Node.tag : Node → String
  | .mk t _ _ _ => t

def Node.attrib : Node → List (String × String)
  | .mk _ a _ _ => a

def Node.text : Node → Option String
  | .mk _ _ x _ => x

def Node.children : Node → List Node
  | .mk _ _ _ cs => cs

mutual
def beqNode : Node → Node → Bool
  | .mk t1 a1 x1 c1, .mk t2 a2 x2 c2 =>
    t1 == t2 && a1 == a2 && x1 == x2 && beqNodeList c1 c2
def beqNodeList : List Node → List Node → Bool
  | [], [] => true
  | a :: as', b :: bs => beqNode a b && beqNodeList as' bs
  | _, _ => false
end

mutual
theorem beqNode_iff : ∀ a b, beqNode a b = true ↔ a = b
  | .mk t1 a1 x1 c1, .mk t2 a2 x2 c2 => by
    simp only [beqNode, Bool.and_eq_true, beq_iff_eq, Node.mk.injEq]
    constructor
    · rintro ⟨⟨⟨h1, h2⟩, h3⟩, h4⟩
      exact ⟨h1, h2, h3, (beqNodeList_iff c1 c2).mp h4⟩
    · rintro ⟨h1, h2, h3, h4⟩
      exact ⟨⟨⟨h1, h2⟩, h3⟩, (beqNodeList_iff c1 c2).mpr h4⟩
theorem beqNodeList_iff : ∀ a b, beqNodeList a b = true ↔ a = b
  | [], [] => by simp [beqNodeList]
  | [], _ :: _ => by simp [beqNodeList]
  | _ :: _, [] => by simp [beqNodeList]
  | a :: as', b :: bs => by
    simp only [beqNodeList, Bool.and_eq_true, List.cons.injEq]
    constructor
    · rintro ⟨h1, h2⟩
      exact ⟨(beqNode_iff a b).mp h1, (beqNodeList_iff as' bs).mp h2⟩
    · rintro ⟨h1, h2⟩
      exact ⟨(beqNode_iff a b).mpr h1, (beqNodeList_iff as' bs).mpr h2⟩
end

instance : DecidableEq Node := fun a b => decidable_of_iff (beqNode a b = true) (beqNode_iff a b)

def dfltNode : Node := .mk "" [] none []

/-!
Map Codec: XMLUtils.xml_to_dict (src/src/xml_utils.py lines 49-98) and
XMLUtils.dict_to_xml (lines 100-146).

The generic map value: Python values flowing through the codec are None,
strings, integers (callers may pass them in dicts), lists and dicts.  A dict
is a list of key-value entries, unique keys, insertion ordered.
-/

mutual
inductive MapValue where
  | null
  | str (s : String)
  | int (n : Int)
  | seq (items : List MapValue)
  | map (entries : List MapEntry)
inductive MapEntry where
  | mk (key : String) (val : MapValue)
end

def MapEntry.key : MapEntry → String
  | .mk k _ => k

def MapEntry.val : MapEntry → MapValue
  | .mk _ v => v

/-- Python dict lookup on map entries. -/
def getEV : List MapEntry → String → Option MapValue
  | [], _ => none
  | .mk k v :: rest, key => if k == key then some v else getEV rest key

/-- Python dict item assignment on an existing key of a map value. -/
def setEV : List MapEntry → String → MapValue → List MapEntry
  | [], _, _ => []
  | .mk k v :: rest, key, nv =>
    if k == key then .mk key nv :: rest else .mk k v :: setEV rest key nv

/-- Python dict.update on map entries (result.update(children), line 89). -/
def dictUpdateEV (base upd : List MapEntry) : List MapEntry :=
  upd.foldl
    (fun acc e => if (getEV acc e.key).isSome then setEV acc e.key e.val else acc ++ [e])
    base

/-- Python str() for the values the code renders as text.  The codec itself
only reaches the null, str and int cases; str() of a container (its repr) is
never produced by any modelled flow and is left as "". -/
def pyStr : MapValue → String
  | .null => "None"
  | .str s => s
  | .int n => if n < 0 then "-" ++ natStr (- n).toNat else natStr n.toNat
  | .seq _ => ""
  | .map _ => ""

/-- Child grouping step of xml_to_dict (lines 78-86): insert one encoded
child into the children dict; a repeated tag wraps the existing value into a
list and appends. -/
def addChildEntry (acc : List MapEntry) (tag : String) (v : MapValue) : List MapEntry :=
  match getEV acc tag with
  | none => acc ++ [.mk tag v]
  | some (.seq l) => setEV acc tag (.seq (l ++ [v]))
  | some old => setEV acc tag (.seq [old, v])

/-- The loop of lines 78-86 over the encoded children, in document order. -/
def buildChildrenDict (acc : List MapEntry) : List MapEntry → List MapEntry
  | [] => acc
  | .mk t v :: rest => buildChildrenDict (addChildEntry acc t v) rest

mutual
/-- XMLUtils.xml_to_dict (lines 49-98), translated case by case:
attributes go under "@attributes"; non-blank text goes under "#text" unless
the element has neither children nor attributes, in which case the trimmed
text itself is returned; children are grouped by tag (single value or list);
an element with no attributes, no non-blank text and no children encodes as
None (the empty marker). -/
def xml_to_dict : Node → MapValue
  | .mk _ attrib text cs =>
    let textNB := isNonBlank text
    if textNB && cs.isEmpty && attrib.isEmpty then
      .str (pyStrip (text.getD ""))
    else
      let attrPart : List MapEntry :=
        if attrib.isEmpty then []
        else [.mk "@attributes" (.map (attrib.map (fun kv => .mk kv.1 (.str kv.2))))]
      let textPart : List MapEntry :=
        if textNB then [.mk "#text" (.str (pyStrip (text.getD "")))] else []
      let childrenDict := buildChildrenDict [] (encodeChildren cs)
      let result := dictUpdateEV (attrPart ++ textPart) childrenDict
      if childrenDict.isEmpty && !textNB then
        if attrib.isEmpty then .null else .map result
      else .map result
def encodeChildren : List Node → List MapEntry
  | [] => []
  | c :: cs => .mk c.tag (xml_to_dict c) :: encodeChildren cs
end

mutual
/-- The build_element closure of XMLUtils.dict_to_xml (lines 112-144):
a dict consumes "@attributes" and "#text" and turns every other key into one
child (or one child per element of a list value); a list at the top is
ignored (lines 136-138 pass, leaving a bare element); any other value is
rendered as text via str() (lines 140-142). -/
def build_element (tag : String) : MapValue → Node
  | .map entries =>
    let attrs :=
      match getEV entries "@attributes" with
      | some (.map am) => am.map (fun e => (e.key, pyStr e.val))
      | _ => []
    let txt := (getEV entries "#text").map pyStr
    .mk tag attrs txt (buildEntries entries)
  | .seq _ => .mk tag [] none []
  | v => .mk tag [] (some (pyStr v)) []
/-- The loop of lines 126-134 over value.items(), skipping the two reserved
keys; a list value yields one child per item, any other value one child. -/
def buildEntries : List MapEntry → List Node
  | [] => []
  | .mk k (.seq items) :: rest =>
    if k == "@attributes" || k == "#text" then buildEntries rest
    else buildSeq k items ++ buildEntries rest
  | .mk k v :: rest =>
    if k == "@attributes" || k == "#text" then buildEntries rest
    else build_element k v :: buildEntries rest
def buildSeq (k : String) : List MapValue → List Node
  | [] => []
  | v :: vs => build_element k v :: buildSeq k vs
end

/-- XMLUtils.dict_to_xml (lines 100-146). -/
def dict_to_xml (data : MapValue) (root_tag : String) : Node :=
  build_element root_tag data

/-!
Tree Merge: XMLUtils.merge_xml_elements (src/src/xml_utils.py lines 167-200).

The Python mutates base in place and returns it; lxml's base.append moves an
element out of its previous parent, so the update (overlay) tree loses every
child handed to append, recursively.  mergeFull returns both resulting
trees: component 1 is the returned base, component 2 is what is left of the
update tree after the call.
-/

/-- The dict comprehension of line 187, base_children = (child.tag: child):
for each tag the value is the last same-tag child; it is consulted but never
updated by the loop.  Modelled as the index (into the original child list)
of the last child carrying the tag. -/
def lastTagIdx : List Node → String → Option Nat
  | [], _ => none
  | c :: cs, t =>
    match lastTagIdx cs t with
    | some i => some (i + 1)
    | none => if c.tag == t then some 0 else none

mutual
def mergeFull : Node → Node → Node × Node
  | .mk bt ba bx bcs, .mk ut ua ux ucs =>
    let r := mergeLoop bcs bcs ucs
    (.mk bt (dictUpdate ba ua) (if isNonBlank ux then ux else bx) r.1,
     .mk ut ua ux r.2)
/-- The loop of lines 189-198: orig is the base child list the dict was
built from, cs the current (mutated) base child list.  A same-tag hit merges
in place at the dict's index; otherwise the update child is appended to base
(and thereby moved out of the update tree).  The second component collects
what remains of the update children. -/
def mergeLoop (orig cs : List Node) : List Node → List Node × List Node
  | [] => (cs, [])
  | u :: us =>
    match lastTagIdx orig u.tag with
    | some i =>
      let bu := mergeFull (cs.getD i dfltNode) u
      let rest := mergeLoop orig (cs.set i bu.1) us
      (rest.1, bu.2 :: rest.2)
    | none =>
      let rest := mergeLoop orig (cs ++ [u]) us
      (rest.1, rest.2)
end

/-- XMLUtils.merge_xml_elements: the value of the returned (mutated) base. -/
def merge_xml_elements (base update : Node) : Node := (mergeFull base update).1

/-- The update (overlay) tree as it stands after merge_xml_elements, given
lxml's move-on-append semantics. -/
def overlayAfterMerge (base update : Node) : Node := (mergeFull base update).2

/-!
Content Query: XMLUtils.find_elements_by_content (lines 202-260).
-/

mutual
/-- Proper descendants of a node in document (depth-first preorder) order:
the node set selected by the XPath descendant axis `.//`. -/
def descendants : Node → List Node
  | .mk _ _ _ cs => descList cs
def descList : List Node → List Node
  | [] => []
  | c :: cs => c :: (descendants c ++ descList cs)
end

/-- Start character of an XML name (conservative ASCII subset of NCName). -/
def ncNameStart (c : Char) : Bool := c.isAlpha || c == '_'

/-- Later character of an XML name (conservative ASCII subset of NCName). -/
def ncNameChar (c : Char) : Bool := c.isAlpha || c.isDigit || c == '_' || c == '-' || c == '.'

/-- An XML name from the conservative subset.  Such a string is a literal
XPath name test: it is not a wildcard and contains no expression syntax. -/
def ncName (s : String) : Bool :=
  match s.data with
  | [] => false
  | c :: rest => ncNameStart c && rest.all ncNameChar

/-- No apostrophe (character 39): the code splices text and attribute values
into single-quoted XPath string literals, so an apostrophe breaks the
expression's syntax while any other character is taken literally. -/
def quoteFree (s : String) : Bool := s.data.all (fun c => c.toNat != 39)

/-- The plain-query fragment: every name spliced into the XPath is a literal
name test and every string literal is quote free.  On this fragment the
expression built by lines 224-236 is syntactically valid XPath whose meaning
is the literal conjunctive filter, so root.xpath(...) returns normally.
Falsy filters (None or "") contribute nothing and need no condition. -/
def xpathPlain (tag text : Option String) (attributes : List (String × String)) : Bool :=
  (!isTruthy tag || ncName (tag.getD "")) &&
  (!isTruthy text || quoteFree (text.getD "")) &&
  attributes.all (fun kv => ncName kv.1 && quoteFree kv.2)

/-- XMLUtils.find_elements_by_content (lines 202-260).  The code builds the
XPath `.//tag` (or `.//*`), plus `[contains(text(), t)]` when a text filter
is given and one `[@k='v']` per attribute pair, and evaluates it on root
inside try/except; on an exception it falls back to a manual scan.

Plain branch: for arguments in the plain fragment the external XPath engine
(out of scope per the spec, assumed correct) evaluates the expression on the
descendant axis: in document order, the proper descendants of root — the
context node itself is not on the `.//` axis — satisfying all predicates.
Falsy arguments (None or empty string, None or empty dict) add no condition.

Fallback branch: the manual scan of lines 242-258, translated literally:
root.iter() visits root itself and then the descendants in document order;
a text filter requires truthy elem.text containing the text; attribute
filters require exact values.  In Python this branch runs exactly when
root.xpath raises (e.g. an apostrophe inside a value breaks the quoted
literal).  Arguments outside the plain fragment for which the expression
still parses — the wildcard `*` or other non-literal name tests — keep the
engine path in Python with non-literal meaning; they are outside the
fragment modelled here and no theorem below is about them. -/
def find_elements_by_content (root : Node) (tag text : Option String)
    (attributes : List (String × String)) : List Node :=
  if xpathPlain tag text attributes then
    (descendants root).filter (fun n =>
      (!isTruthy tag || n.tag == tag.getD "") &&
      (!isTruthy text || strContains (n.text.getD "") (text.getD "")) &&
      attributes.all (fun kv => getVal n.attrib kv.1 == some kv.2))
  else
    (root :: descendants root).filter (fun n =>
      (!isTruthy tag || n.tag == tag.getD "") &&
      (!isTruthy text ||
        (!(n.text.getD "").isEmpty && strContains (n.text.getD "") (text.getD ""))) &&
      attributes.all (fun kv => getVal n.attrib kv.1 == some kv.2))

/-!
Path Resolver: XMLUtils.get_element_path (lines 262-293).  A node inside a
tree is addressed by its position: the list of child indices from the root.
-/

/-- Node at a position. -/
def nodeAt : Node → List Nat → Option Node
  | n, [] => some n
  | n, i :: rest =>
    match n.children[i]? with
    | none => none
    | some c => nodeAt c rest

/-- Whether a position is valid in a tree. -/
def validPos : Node → List Nat → Bool
  | _, [] => true
  | n, i :: rest =>
    match n.children[i]? with
    | none => false
    | some c => validPos c rest

/-- One path segment (lines 279-286): the child at index i of parent; if the
parent has more than one same-tag child, a 1-based bracketed position among
the same-tag siblings is appended.  siblings.index(current) compares lxml
element proxies, which have no custom equality, so it finds current itself:
it equals the number of same-tag siblings at earlier positions. -/
def segOf (parent : Node) (i : Nat) : String :=
  match parent.children[i]? with
  | none => ""
  | some cur =>
    let siblings := parent.children.filter (fun e => e.tag == cur.tag)
    if siblings.length > 1 then
      cur.tag ++ "[" ++ natStr ((parent.children.take i).countP (fun e => e.tag == cur.tag) + 1) ++ "]"
    else cur.tag

/-- The while loop of lines 276-290 walked from the node up to the root,
producing path_parts in node-to-root order.  The argument is the reversed
position: its head is the node's index in its parent. -/
def partsRev (root : Node) : List Nat → List String
  | [] => [root.tag]
  | i :: rest =>
    (match nodeAt root rest.reverse with
     | none => ""
     | some parent => segOf parent i) :: partsRev root rest

/-- XMLUtils.get_element_path (lines 262-293): accumulate path_parts from
the node upward, reverse, join with "/" and prefix "/". -/
def get_element_path (root : Node) (pos : List Nat) : String :=
  "/" ++ joinSlash (partsRev root pos.reverse).reverse

/-!
Structural Comparator: XMLUtils.compare_xml_elements (lines 314-351).
-/

/-- Python dict equality for attribute dictionaries (attribute key sets are
duplicate free, as in lxml): both dicts assign the same value to the same
keys. -/
def attribDictEq (a b : List (String × String)) : Bool :=
  a.all (fun kv => getVal b kv.1 == some kv.2) && b.all (fun kv => getVal a kv.1 == some kv.2)

mutual
/-- XMLUtils.compare_xml_elements (lines 314-351): equal tags, equal
stripped text (absent counts as ""), equal attribute dicts, equal child
counts and recursively equal children, position by position. -/
def compare_xml_elements : Node → Node → Bool
  | .mk t1 a1 x1 c1, .mk t2 a2 x2 c2 =>
    t1 == t2 &&
    pyStrip (x1.getD "") == pyStrip (x2.getD "") &&
    attribDictEq a1 a2 &&
    c1.length == c2.length &&
    compareChildren c1 c2
/-- The zip loop of lines 347-349 (the zip stops at the shorter list; the
length test has already run). -/
def compareChildren : List Node → List Node → Bool
  | a :: as', b :: bs => compare_xml_elements a b && compareChildren as' bs
  | _, _ => true
end

/-!
Well-formedness predicates used as hypotheses.  They encode invariants every
lxml element tree satisfies (unique attribute keys, valid tag names) and the
extra shape conditions under which the algebraic claims hold.
-/

/-- Keys of a dictionary are pairwise distinct (a Python dict invariant). -/
def nodupKeys {α : Type} : List (String × α) → Bool
  | [] => true
  | kv :: rest => !(rest.any (fun kv2 => kv2.1 == kv.1)) && nodupKeys rest

theorem length_dropWhile_le {α : Type} (p : α → Bool) :
    ∀ l : List α, (l.dropWhile p).length ≤ l.length
  | [] => Nat.le_refl 0
  | a :: l => by
    by_cases h : p a = true
    · rw [List.dropWhile_cons_of_pos h]
      exact Nat.le_succ_of_le (length_dropWhile_le p l)
    · rw [List.dropWhile_cons_of_neg (by simpa using h)]

/-- Each value occurs in one contiguous block: whenever two adjacent values
differ, the earlier one never reappears in the remainder. -/
def groupedTags : List String → Bool
  | [] => true
  | [_] => true
  | t1 :: t2 :: rest =>
    (t1 == t2 || !((t2 :: rest).any (fun s => s == t1))) && groupedTags (t2 :: rest)

mutual
/-- Trees the codec round trip preserves: no empty-marker elements (each
node has attributes, non-blank text or children), duplicate-free attribute
keys, no child tag equal to a reserved codec key, and same-tag children
contiguous. -/
def roundTripSafe : Node → Bool
  | .mk _ attrib text cs =>
    (!attrib.isEmpty || isNonBlank text || !cs.isEmpty) &&
    nodupKeys attrib &&
    cs.all (fun c => c.tag != "@attributes" && c.tag != "#text") &&
    groupedTags (cs.map Node.tag) &&
    roundTripSafeList cs
def roundTripSafeList : List Node → Bool
  | [] => true
  | c :: cs => roundTripSafe c && roundTripSafeList cs
end

/-- Values are pairwise distinct. -/
def nodupTags : List String → Bool
  | [] => true
  | t :: rest => !(rest.any (fun s => s == t)) && nodupTags rest

mutual
/-- Trees on which merge with a copy of itself is the identity: children
tags distinct at every node and duplicate-free attribute keys. -/
def mergeIdemOK : Node → Bool
  | .mk _ attrib _ cs => nodupKeys attrib && nodupTags (cs.map Node.tag) && mergeIdemOKList cs
def mergeIdemOKList : List Node → Bool
  | [] => true
  | c :: cs => mergeIdemOK c && mergeIdemOKList cs
end

/-- Characters legal for path reasoning: XML names contain neither the
bracket that opens a positional index nor the path separator. -/
def tagOkChar (c : Char) : Bool := c != '[' && c != '/'

/-- A non-empty tag made of legal characters (true of every XML name). -/
def tagOk (t : String) : Bool := !t.isEmpty && t.data.all tagOkChar

mutual
/-- Every tag in the tree is a legal XML-style name. -/
def tagsOk : Node → Bool
  | .mk t _ _ cs => tagOk t && tagsOkList cs
def tagsOkList : List Node → Bool
  | [] => true
  | c :: cs => tagsOk c && tagsOkList cs
end

/-- A scalar map value: neither a mapping nor a sequence. -/
def isScalar : MapValue → Bool
  | .seq _ => false
  | .map _ => false
  | _ => true

/-!
Generic helper lemmas.
-/

theorem beq_symm {α : Type} [BEq α] [LawfulBEq α] (x y : α) : (x == y) = (y == x) := by
  by_cases h : x = y
  · subst h; rfl
  · have h1 : (x == y) = false := beq_false_of_ne h
    have h2 : (y == x) = false := beq_false_of_ne (Ne.symm h)
    rw [h1, h2]

/-!
Claim C9 — comparator symmetry.
-/

mutual
theorem compare_symm_aux : ∀ a b, compare_xml_elements a b = compare_xml_elements b a
  | .mk t1 a1 x1 c1, .mk t2 a2 x2 c2 => by
    simp only [compare_xml_elements]
    rw [beq_symm t1 t2, beq_symm (pyStrip (x1.getD "")) (pyStrip (x2.getD "")),
      beq_symm c1.length c2.length, compareChildren_symm_aux c1 c2]
    have hab : attribDictEq a1 a2 = attribDictEq a2 a1 := by
      simp only [attribDictEq]
      exact Bool.and_comm _ _
    rw [hab]
theorem compareChildren_symm_aux : ∀ a b, compareChildren a b = compareChildren b a
  | [], [] => rfl
  | [], _ :: _ => rfl
  | _ :: _, [] => rfl
  | a :: as', b :: bs => by
    simp only [compareChildren]
    rw [compare_symm_aux a b, compareChildren_symm_aux as' bs]
end

/-- Claim C9: for every pair of trees a and b, the structural comparator
returns the same boolean on (a, b) as on (b, a). -/
theorem C9_compare_symmetric (a b : Node) :
    compare_xml_elements a b = compare_xml_elements b a :=
  compare_symm_aux a b

/-!
Claim C10 — fromMap renders every scalar value via str(); in particular the
empty marker None becomes the text "None".
-/

theorem build_element_scalar (tag : String) :
    ∀ v, isScalar v = true → build_element tag v = .mk tag [] (some (pyStr v)) []
  | .null, _ => rfl
  | .str _, _ => rfl
  | .int _, _ => rfl

/-- Claim C10: fromMap renders every scalar (non-mapping, non-sequence)
value as the str() form of that value in the node's text; the empty marker
produced by toMap for an element with no attributes, text or children is
None, and fromMap turns it into a node with text "None" rather than a
self-closing element. -/
theorem C10_scalar_str_rendering :
    (∀ (tag : String) (v : MapValue), isScalar v = true →
        build_element tag v = .mk tag [] (some (pyStr v)) []) ∧
    xml_to_dict (.mk "empty" [] none []) = MapValue.null ∧
    dict_to_xml (xml_to_dict (.mk "empty" [] none [])) "empty"
      = Node.mk "empty" [] (some "None") [] :=
  ⟨fun tag v h => build_element_scalar tag v h, rfl, rfl⟩

theorem C10_scalar_str_rendering_witness :
    isScalar (MapValue.int 5) = true ∧
    build_element "e" (MapValue.int 5) = Node.mk "e" [] (some "5") [] :=
  ⟨rfl, C10_scalar_str_rendering.1 "e" (MapValue.int 5) rfl⟩

/-!
Claim C5 — path of a node not attached to a tree.
-/

/-- Counterexample to claim C5: for a detached node (no parent, as for a
freshly created or removed lxml element) get_element_path does not fail: it
returns the path string "/x" built from the node alone. -/
theorem C5_counterexample_detached_path :
    get_element_path (.mk "x" [] none []) [] = "/x" := rfl

/-- Claim C5 (amended): requesting the path of a node that is not attached
to a surrounding tree never fails; the walk ends at the node itself and the
function returns "/" followed by the node's tag, exactly as for a root. -/
theorem C5_detached_path_total (n : Node) : get_element_path n [] = "/" ++ n.tag := rfl

/-!
Merge loop lemmas shared by claims C1 and C2.
-/

theorem lastTagIdx_isSome : ∀ (l : List Node) (t : String),
    (lastTagIdx l t).isSome = l.any (fun b => b.tag == t)
  | [], _ => rfl
  | c :: cs, t => by
    cases h : lastTagIdx cs t with
    | some i => simp [lastTagIdx, h, ← lastTagIdx_isSome cs t]
    | none =>
      by_cases hc : c.tag == t <;>
        simp [lastTagIdx, h, hc, ← lastTagIdx_isSome cs t]

theorem lastTagIdx_lt : ∀ (l : List Node) (t : String) (i : Nat),
    lastTagIdx l t = some i → i < l.length
  | [], _, _, h => by simp [lastTagIdx] at h
  | c :: cs, t, i, h => by
    revert h
    cases h2 : lastTagIdx cs t with
    | some j =>
      intro h
      simp only [lastTagIdx, h2, Option.some.injEq] at h
      have := lastTagIdx_lt cs t j h2
      simp only [List.length_cons]
      omega
    | none =>
      intro h
      by_cases hc : c.tag == t
      · simp only [lastTagIdx, h2, hc, if_true, Option.some.injEq] at h
        simp [← h]
      · simp [lastTagIdx, h2, hc] at h

theorem mergeFull_fst_tag : ∀ (b u : Node), (mergeFull b u).1.tag = b.tag
  | .mk _ _ _ _, .mk _ _ _ _ => rfl

theorem getD_append_left {α : Type} (d : α) :
    ∀ (l₁ l₂ : List α) (i : Nat), i < l₁.length → (l₁ ++ l₂).getD i d = l₁.getD i d
  | [], _, i, h => absurd h (by simp)
  | _ :: _, _, 0, _ => rfl
  | _ :: l₁, l₂, i + 1, h => getD_append_left d l₁ l₂ i (by simpa using Nat.lt_of_succ_lt_succ h)

theorem set_append_left {α : Type} :
    ∀ (l₁ l₂ : List α) (i : Nat) (a : α), i < l₁.length → (l₁ ++ l₂).set i a = l₁.set i a ++ l₂
  | [], _, i, _, h => absurd h (by simp)
  | _ :: _, _, 0, _, _ => rfl
  | b :: l₁, l₂, i + 1, a, h => by
    show b :: (l₁ ++ l₂).set i a = b :: (l₁.set i a ++ l₂)
    rw [set_append_left l₁ l₂ i a (by simpa using Nat.lt_of_succ_lt_succ h)]

theorem getD_set_tag (m : Node) :
    ∀ (l : List Node) (i : Nat), i < l.length → m.tag = (l.getD i dfltNode).tag →
      (l.set i m).map Node.tag = l.map Node.tag
  | [], i, h, _ => absurd h (by simp)
  | c :: cs, 0, _, htag => by simp [List.set, htag]
  | c :: cs, i + 1, h, htag => by
    simp only [List.set, List.map_cons, List.cons.injEq, true_and]
    exact getD_set_tag m cs i (by simpa using Nat.lt_of_succ_lt_succ h) htag

theorem mergeLoop_snd_length (orig : List Node) : ∀ (us cs : List Node),
    (mergeLoop orig cs us).2.length = us.countP (fun u => (lastTagIdx orig u.tag).isSome)
  | [], _ => rfl
  | u :: us, cs => by
    cases h : lastTagIdx orig u.tag with
    | some i =>
      simp [mergeLoop, h, mergeLoop_snd_length orig us, List.countP_cons]
    | none =>
      simp [mergeLoop, h, mergeLoop_snd_length orig us, List.countP_cons]

/-- The loop of lines 189-198 only ever rewrites positions of the original
base child list (keeping their tags) and appends, in document order, exactly
the update children whose tag the dict does not know. -/
theorem mergeLoop_split : ∀ (us orig kernel appended : List Node),
    kernel.length = orig.length →
    ∃ kernel',
      (mergeLoop orig (kernel ++ appended) us).1
          = kernel' ++ appended ++ us.filter (fun u => !(lastTagIdx orig u.tag).isSome)
        ∧ kernel'.length = kernel.length ∧ kernel'.map Node.tag = kernel.map Node.tag
  | [], orig, kernel, appended, _ => by
    refine ⟨kernel, ?_, rfl, rfl⟩
    simp [mergeLoop]
  | u :: us, orig, kernel, appended, hlen => by
    cases h : lastTagIdx orig u.tag with
    | some i =>
      have hi : i < kernel.length := hlen ▸ lastTagIdx_lt orig u.tag i h
      have hset : (kernel ++ appended).set i (mergeFull ((kernel ++ appended).getD i dfltNode) u).1
          = kernel.set i (mergeFull (kernel.getD i dfltNode) u).1 ++ appended := by
        rw [getD_append_left dfltNode kernel appended i hi, set_append_left kernel appended i _ hi]
      obtain ⟨kernel', h1, h2, h3⟩ :=
        mergeLoop_split us orig (kernel.set i (mergeFull (kernel.getD i dfltNode) u).1) appended
          (by simpa using hlen)
      refine ⟨kernel', ?_, by simpa using h2, ?_⟩
      · simp only [mergeLoop, h, hset, h1, List.filter_cons, Option.isSome_some,
          Bool.not_true, Bool.false_eq_true, if_false]
      · rw [h3]
        exact getD_set_tag (mergeFull (kernel.getD i dfltNode) u).1 kernel i hi
          (mergeFull_fst_tag (kernel.getD i dfltNode) u)
    | none =>
      obtain ⟨kernel', h1, h2, h3⟩ :=
        mergeLoop_split us orig kernel (appended ++ [u]) hlen
      refine ⟨kernel', ?_, h2, h3⟩
      simp only [mergeLoop, h, List.filter_cons, Option.isSome_none, Bool.not_false, if_true]
      rw [← List.append_assoc] at h1
      rw [h1, List.append_assoc, List.append_assoc, List.singleton_append,
        ← List.append_assoc]

theorem getD_set_self {α : Type} (d : α) :
    ∀ (l : List α) (i : Nat) (a : α), i < l.length → (l.set i a).getD i d = a
  | [], i, a, h => absurd h (by simp)
  | _ :: _, 0, _, _ => rfl
  | _ :: l, i + 1, a, h => getD_set_self d l i a (by simpa using Nat.lt_of_succ_lt_succ h)

theorem getD_set_ne {α : Type} (d : α) :
    ∀ (l : List α) (i j : Nat) (a : α), i ≠ j → (l.set j a).getD i d = l.getD i d
  | [], _, _, _, _ => rfl
  | _ :: _, 0, 0, _, hne => absurd rfl hne
  | _ :: _, 0, _ + 1, _, _ => rfl
  | _ :: _, _ + 1, 0, _, _ => rfl
  | _ :: l, i + 1, j + 1, a, hne => getD_set_ne d l i j a (fun he => hne (by rw [he]))

/-- The child the dict maps a tag to carries that tag. -/
theorem lastTagIdx_tag : ∀ (l : List Node) (t : String) (i : Nat),
    lastTagIdx l t = some i → (l.getD i dfltNode).tag = t
  | [], _, _, h => by simp [lastTagIdx] at h
  | c :: cs, t, i, h => by
    revert h
    cases h2 : lastTagIdx cs t with
    | some j =>
      intro h
      simp only [lastTagIdx, h2, Option.some.injEq] at h
      cases h
      exact lastTagIdx_tag cs t j h2
    | none =>
      intro h
      by_cases hc : (c.tag == t) = true
      · simp only [lastTagIdx, h2, hc, if_true, Option.some.injEq] at h
        cases h
        exact eq_of_beq hc
      · simp [lastTagIdx, h2, hc] at h

/-- Through the whole loop, the base slot at dict index i accumulates, as a
left fold, the in-place merges of exactly the update children whose dict
lookup lands on i (the repeated same-tag update children, in document
order); children appended for unknown tags never touch the slot. -/
theorem mergeLoop_getD : ∀ (us orig kernel appended : List Node) (i : Nat),
    kernel.length = orig.length → i < orig.length →
    (mergeLoop orig (kernel ++ appended) us).1.getD i dfltNode
      = (us.filter (fun u => lastTagIdx orig u.tag == some i)).foldl
          (fun b u => (mergeFull b u).1) (kernel.getD i dfltNode)
  | [], orig, kernel, appended, i, hlen, hi => by
    show (kernel ++ appended).getD i dfltNode = kernel.getD i dfltNode
    exact getD_append_left dfltNode kernel appended i (by omega)
  | u :: us, orig, kernel, appended, i, hlen, hi => by
    cases h : lastTagIdx orig u.tag with
    | some j =>
      have hj : j < kernel.length := hlen ▸ lastTagIdx_lt orig u.tag j h
      have hset : (kernel ++ appended).set j (mergeFull ((kernel ++ appended).getD j dfltNode) u).1
          = kernel.set j (mergeFull (kernel.getD j dfltNode) u).1 ++ appended := by
        rw [getD_append_left dfltNode kernel appended j hj, set_append_left kernel appended j _ hj]
      have hstep : (mergeLoop orig (kernel ++ appended) (u :: us)).1
          = (mergeLoop orig (kernel.set j (mergeFull (kernel.getD j dfltNode) u).1 ++ appended)
              us).1 := by
        simp only [mergeLoop, h, hset]
      by_cases hij : j = i
      · subst hij
        have hcond : (lastTagIdx orig u.tag == some j) = true := by
          rw [h]
          exact beq_self_eq_true (some j)
        have ih := mergeLoop_getD us orig
          (kernel.set j (mergeFull (kernel.getD j dfltNode) u).1) appended j
          (by simpa using hlen) hi
        rw [hstep, ih, getD_set_self dfltNode kernel j _ hj]
        simp only [List.filter_cons, hcond, if_true, List.foldl_cons]
      · have hcond : (lastTagIdx orig u.tag == some i) = false := by
          rw [h]
          exact beq_eq_false_iff_ne.mpr (fun he => hij (Option.some.inj he))
        have ih := mergeLoop_getD us orig
          (kernel.set j (mergeFull (kernel.getD j dfltNode) u).1) appended i
          (by simpa using hlen) hi
        rw [hstep, ih, getD_set_ne dfltNode kernel i j _ (fun he => hij he.symm)]
        simp only [List.filter_cons, hcond, Bool.false_eq_true, if_false]
    | none =>
      have hcond : (lastTagIdx orig u.tag == some i) = false := by
        rw [h]
        rfl
      have hstep : (mergeLoop orig (kernel ++ appended) (u :: us)).1
          = (mergeLoop orig (kernel ++ (appended ++ [u])) us).1 := by
        simp only [mergeLoop, h, List.append_assoc]
      have ih := mergeLoop_getD us orig kernel (appended ++ [u]) i hlen hi
      rw [hstep, ih]
      simp only [List.filter_cons, hcond, Bool.false_eq_true, if_false]

mutual
/-- r is a prune of u: identical tag, attributes and text, and r's children
are, in order, prunes of a subsequence of u's children — the relation that
moving subtrees out of a tree (and changing nothing else) induces. -/
def prunedOf : Node → Node → Bool
  | .mk t1 a1 x1 cs1, .mk t2 a2 x2 cs2 =>
    t1 == t2 && a1 == a2 && x1 == x2 && prunedList cs1 cs2
/-- The first list is, in order, a list of prunes of a subsequence of the
second. -/
def prunedList : List Node → List Node → Bool
  | [], _ => true
  | _ :: _, [] => false
  | r :: rs, u :: us => (prunedOf r u && prunedList rs us) || prunedList (r :: rs) us
end

theorem prunedList_skip : ∀ (rs : List Node) (u : Node) (us : List Node),
    prunedList rs us = true → prunedList rs (u :: us) = true
  | [], _, _, _ => rfl
  | r :: rs, u, us, h => by
    show (prunedOf r u && prunedList rs us || prunedList (r :: rs) us) = true
    simp [h]

mutual
/-- What remains of the update node after the merge is a prune of the
update node that was passed in: lines 196-198 move children (at any depth of
the recursion) out of the update tree and change nothing else in it. -/
theorem mergeFull_snd_pruned : ∀ (b u : Node), prunedOf (mergeFull b u).2 u = true
  | .mk _ _ _ bcs, .mk ut ua ux ucs => by
    show prunedOf (.mk ut ua ux (mergeLoop bcs bcs ucs).2) (.mk ut ua ux ucs) = true
    simp [prunedOf, mergeLoop_snd_pruned bcs bcs ucs]
theorem mergeLoop_snd_pruned : ∀ (orig cs us : List Node),
    prunedList (mergeLoop orig cs us).2 us = true
  | _, _, [] => rfl
  | orig, cs, u :: us => by
    cases h : lastTagIdx orig u.tag with
    | some i =>
      have h1 := mergeFull_snd_pruned (cs.getD i dfltNode) u
      have h2 := mergeLoop_snd_pruned orig (cs.set i (mergeFull (cs.getD i dfltNode) u).1) us
      simp only [List.getD_eq_getElem?_getD] at h1 h2
      simp [mergeLoop, h, prunedList, h1, h2]
    | none =>
      have h2 := mergeLoop_snd_pruned orig (cs ++ [u]) us
      simp only [mergeLoop, h]
      exact prunedList_skip _ u us h2
end

/-- The residual update children collected by the loop correspond one to
one, in order, to exactly the update children whose tag the dict knows, and
each residual is a prune of its update child. -/
theorem mergeLoop_snd_corr : ∀ (us orig cs : List Node),
    List.Forall₂ (fun r u => prunedOf r u = true) (mergeLoop orig cs us).2
      (us.filter (fun u => (lastTagIdx orig u.tag).isSome))
  | [], orig, cs => by simp [mergeLoop]
  | u :: us, orig, cs => by
    cases h : lastTagIdx orig u.tag with
    | some i =>
      have ih := mergeLoop_snd_corr us orig (cs.set i (mergeFull (cs.getD i dfltNode) u).1)
      simp only [mergeLoop, h, List.filter_cons, Option.isSome_some, if_true]
      exact List.Forall₂.cons (mergeFull_snd_pruned (cs.getD i dfltNode) u) ih
    | none =>
      have ih := mergeLoop_snd_corr us orig (cs ++ [u])
      simp only [mergeLoop, h, List.filter_cons, Option.isSome_none, Bool.false_eq_true,
        if_false]
      exact ih

/-!
Claim C1 — merge and the overlay tree.
-/

/-- Counterexample to claim C1: lxml's append moves an element to its new
parent, so merging this base and overlay strips the overlay of its child;
the overlay tree after the call differs from the overlay that was passed. -/
theorem C1_counterexample_overlay_changed :
    overlayAfterMerge (.mk "r" [] none []) (.mk "r" [] none [.mk "c" [] none []])
      ≠ Node.mk "r" [] none [.mk "c" [] none []] := by decide

/-- Claim C1 (amended): merge does mutate the overlay tree.  Its own tag,
attributes and text survive, but children are re-parented into base (moved,
not deep-copied): afterwards the overlay's children correspond one to one,
in order, to exactly its original children whose tag occurred among base's
children, and each survivor is a prune of the original overlay child —
identical tag, attributes and text at every remaining node, with only
(recursively) some children removed. -/
theorem C1_overlay_mutated_on_merge (base update : Node) :
    (overlayAfterMerge base update).tag = update.tag ∧
    (overlayAfterMerge base update).attrib = update.attrib ∧
    (overlayAfterMerge base update).text = update.text ∧
    List.Forall₂ (fun r u => prunedOf r u = true)
      (overlayAfterMerge base update).children
      (update.children.filter (fun u => base.children.any (fun b => b.tag == u.tag))) := by
  obtain ⟨bt, ba, bx, bcs⟩ := base
  obtain ⟨ut, ua, ux, ucs⟩ := update
  refine ⟨rfl, rfl, rfl, ?_⟩
  show List.Forall₂ _ (mergeLoop bcs bcs ucs).2 _
  have hfilter : ucs.filter (fun u => (lastTagIdx bcs u.tag).isSome)
      = ucs.filter (fun u => bcs.any (fun b => b.tag == u.tag)) :=
    List.filter_congr (fun u _ => by rw [lastTagIdx_isSome])
  have hcorr := mergeLoop_snd_corr ucs bcs bcs
  rw [hfilter] at hcorr
  exact hcorr

/-!
Claim C2 — merge policy for repeated tags.
-/

/-- Counterexample to claim C2, in two parts.  First: base has one b child,
the overlay two.  The claim requires the second overlay b to be appended as
a new sibling (two b children, the first holding the first overlay text).
The code instead merges both overlay children into base's b child in turn:
one child remains and it holds the second overlay text.  Second: base has
two b children, the overlay one.  The claim's "first same-tag child on each
side participates" predicts a merge into the first base b (children U then
B); the code's dict maps b to the last same-tag child, so the first base b
is untouched and the last receives the overlay text (children A then U). -/
theorem C2_counterexample_second_same_tag_merged :
    (merge_xml_elements (.mk "r" [] none [.mk "b" [] (some "0") []])
        (.mk "r" [] none [.mk "b" [] (some "1") [], .mk "b" [] (some "2") []])).children
      = [Node.mk "b" [] (some "2") []] ∧
    (merge_xml_elements (.mk "r" [] none [.mk "b" [] (some "0") []])
        (.mk "r" [] none [.mk "b" [] (some "1") [], .mk "b" [] (some "2") []])).children.length
      ≠ 2 ∧
    (merge_xml_elements (.mk "r" [] none [.mk "b" [] (some "A") [], .mk "b" [] (some "B") []])
        (.mk "r" [] none [.mk "b" [] (some "U") []])).children
      = [Node.mk "b" [] (some "A") [], Node.mk "b" [] (some "U") []] ∧
    (merge_xml_elements (.mk "r" [] none [.mk "b" [] (some "A") [], .mk "b" [] (some "B") []])
        (.mk "r" [] none [.mk "b" [] (some "U") []])).children
      ≠ [Node.mk "b" [] (some "U") [], Node.mk "b" [] (some "B") []] := by
  refine ⟨rfl, by decide, rfl, by decide⟩

/-- Claim C2 (amended): the merge target for a tag is the last same-tag
child of the original base, and every overlay child whose tag occurs among
base's original children — repeated same-tag children beyond the first
included — is recursively merged into that same target, never appended.
Formally: each original child slot i survives in place; it is unchanged
unless i is the position the tag dict maps its tag to (the last slot of
that tag), in which case it carries the left fold of merge over all
same-tag overlay children in document order.  After the original slots the
merged base carries, as appended new siblings in document order, exactly
the overlay children whose tag is absent from base. -/
theorem C2_merge_repeated_tag_policy (base update : Node) :
    (∀ i, i < base.children.length →
      (merge_xml_elements base update).children.getD i dfltNode
        = (if lastTagIdx base.children (base.children.getD i dfltNode).tag = some i
           then (update.children.filter
                (fun u => u.tag == (base.children.getD i dfltNode).tag)).foldl
                merge_xml_elements (base.children.getD i dfltNode)
           else base.children.getD i dfltNode)) ∧
    ((merge_xml_elements base update).children.map Node.tag).take base.children.length
      = base.children.map Node.tag ∧
    (merge_xml_elements base update).children.drop base.children.length
      = update.children.filter (fun u => !(base.children.any (fun b => b.tag == u.tag))) := by
  obtain ⟨bt, ba, bx, bcs⟩ := base
  obtain ⟨ut, ua, ux, ucs⟩ := update
  obtain ⟨kernel', h1, h2, h3⟩ := mergeLoop_split ucs bcs bcs [] rfl
  have hcs : (merge_xml_elements (.mk bt ba bx bcs) (.mk ut ua ux ucs)).children
      = kernel' ++ ucs.filter (fun u => !(lastTagIdx bcs u.tag).isSome) := by
    show (mergeLoop bcs bcs ucs).1 = _
    simpa using h1
  have hfilter : ucs.filter (fun u => !(lastTagIdx bcs u.tag).isSome)
      = ucs.filter (fun u => !(bcs.any (fun b => b.tag == u.tag))) :=
    List.filter_congr (fun u _ => by rw [lastTagIdx_isSome])
  refine ⟨?_, ?_, ?_⟩
  · intro i hi
    have hi' : i < bcs.length := hi
    have hml := mergeLoop_getD ucs bcs bcs [] i rfl hi'
    rw [List.append_nil] at hml
    show (mergeLoop bcs bcs ucs).1.getD i dfltNode
        = (if lastTagIdx bcs ((bcs.getD i dfltNode).tag) = some i
           then (ucs.filter (fun u => u.tag == (bcs.getD i dfltNode).tag)).foldl
                merge_xml_elements (bcs.getD i dfltNode)
           else bcs.getD i dfltNode)
    by_cases hlast : lastTagIdx bcs ((bcs.getD i dfltNode).tag) = some i
    · rw [if_pos hlast]
      have hfilt : ucs.filter (fun u => lastTagIdx bcs u.tag == some i)
          = ucs.filter (fun u => u.tag == (bcs.getD i dfltNode).tag) := by
        apply List.filter_congr
        intro u _
        by_cases hu : u.tag = (bcs.getD i dfltNode).tag
        · rw [hu, hlast]
          exact (beq_self_eq_true (some i)).trans (beq_self_eq_true _).symm
        · have hne : lastTagIdx bcs u.tag ≠ some i :=
            fun hc => hu (lastTagIdx_tag bcs u.tag i hc).symm
          rw [beq_eq_false_iff_ne.mpr hne, beq_eq_false_iff_ne.mpr hu]
      rw [hfilt] at hml
      exact hml
    · rw [if_neg hlast]
      have hnil : ucs.filter (fun u => lastTagIdx bcs u.tag == some i) = [] := by
        rw [List.filter_eq_nil_iff]
        intro u _
        intro hc
        have he : lastTagIdx bcs u.tag = some i := eq_of_beq hc
        have ht := lastTagIdx_tag bcs u.tag i he
        rw [← ht] at he
        exact hlast he
      rw [hnil] at hml
      exact hml
  · show ((merge_xml_elements (.mk bt ba bx bcs) (.mk ut ua ux ucs)).children.map Node.tag).take
        bcs.length = bcs.map Node.tag
    rw [hcs, List.map_append, ← h3]
    have : (kernel'.map Node.tag).length = bcs.length := by
      rw [List.length_map, h2]
    rw [← this, List.take_left]
  · show (merge_xml_elements (.mk bt ba bx bcs) (.mk ut ua ux ucs)).children.drop bcs.length
        = ucs.filter (fun u => !(bcs.any (fun b => b.tag == u.tag)))
    rw [hcs, ← hfilter, ← h2, List.drop_left]

/-- Witness: in a base with two b children the code leaves slot 0 alone and
folds the overlay's b into slot 1, the last same-tag child. -/
theorem C2_merge_repeated_tag_policy_witness :
    (1 < (Node.mk "r" [] none
        [.mk "b" [] (some "A") [], .mk "b" [] (some "B") []]).children.length) ∧
    (merge_xml_elements
        (.mk "r" [] none [.mk "b" [] (some "A") [], .mk "b" [] (some "B") []])
        (.mk "r" [] none [.mk "b" [] (some "U") []])).children.getD 1 dfltNode
      = Node.mk "b" [] (some "U") [] := by
  constructor
  · decide
  · have h := (C2_merge_repeated_tag_policy
      (.mk "r" [] none [.mk "b" [] (some "A") [], .mk "b" [] (some "B") []])
      (.mk "r" [] none [.mk "b" [] (some "U") []])).1 1 (by decide)
    rw [h]
    decide

/-!
Claim C4 — content query scope and predicate.
-/

/-- The match predicate exactly as claim C4 words it: tag absent or equal,
text absent or a substring of the node's direct text, and every requested
attribute present with exactly the given value. -/
def claimMatch (n : Node) (tag text : Option String) (attributes : List (String × String)) :
    Bool :=
  (match tag with
   | none => true
   | some t => n.tag == t) &&
  (match text with
   | none => true
   | some s => strContains (n.text.getD "") s) &&
  attributes.all (fun kv => getVal n.attrib kv.1 == some kv.2)

/-- The result set claim C4 prescribes: the root itself plus its
descendants, depth first in document order, filtered by the predicate. -/
def findByContentClaim (root : Node) (tag text : Option String)
    (attributes : List (String × String)) : List Node :=
  (root :: descendants root).filter (fun n => claimMatch n tag text attributes)

/-- The claim with the root removed from the scope: only proper descendants
are searched. -/
def findByContentAmended (root : Node) (tag text : Option String)
    (attributes : List (String × String)) : List Node :=
  (descendants root).filter (fun n => claimMatch n tag text attributes)

/-- Counterexample to claim C4: a childless root whose tag matches the tag
filter.  The claim requires the root itself to be returned; the code's XPath
".//a" searches the descendant axis only and returns nothing. -/
theorem C4_counterexample_root_excluded :
    find_elements_by_content (.mk "a" [] none []) (some "a") none [] = [] ∧
    findByContentClaim (.mk "a" [] none []) (some "a") none []
      = [Node.mk "a" [] none []] :=
  ⟨rfl, rfl⟩

/-- Claim C4 (amended): for plain queries — a tag or text filter, when
present, is a non-empty string, the tag and the attribute keys are XML
names and the text and attribute values are quote free, so the XPath the
code builds is valid and literal and no fallback runs —
find_elements_by_content returns, depth first in document order, exactly
the proper descendants of root — the root itself is not in the search
scope — matching the claim's predicate. -/
theorem C4_find_by_content_scope (root : Node) (tag text : Option String)
    (attributes : List (String × String))
    (htag : tag ≠ some "") (htext : text ≠ some "")
    (hplain : xpathPlain tag text attributes = true) :
    find_elements_by_content root tag text attributes
      = findByContentAmended root tag text attributes := by
  unfold find_elements_by_content findByContentAmended
  rw [if_pos hplain]
  apply List.filter_congr
  intro n _
  unfold claimMatch
  congr 2
  · cases tag with
    | none => rfl
    | some t =>
      have ht : t ≠ "" := fun h => htag (by rw [h])
      have : isTruthy (some t) = true := by
        simp only [isTruthy, Option.getD_some, Bool.not_eq_true']
        exact Bool.eq_false_iff.mpr (fun h => ht ((String.isEmpty_iff t).mp h))
      rw [this]
      simp
  · cases text with
    | none => rfl
    | some s =>
      have hs : s ≠ "" := fun h => htext (by rw [h])
      have : isTruthy (some s) = true := by
        simp only [isTruthy, Option.getD_some, Bool.not_eq_true']
        exact Bool.eq_false_iff.mpr (fun h => hs ((String.isEmpty_iff s).mp h))
      rw [this]
      simp

theorem C4_find_by_content_scope_witness :
    ((some "item" : Option String) ≠ some "" ∧ (none : Option String) ≠ some "" ∧
      xpathPlain (some "item") none [("type", "A"), ("priority", "low")] = true) ∧
    find_elements_by_content
        (.mk "root" [] none
          [.mk "item" [("type", "A"), ("priority", "high")] (some "Item 1") [],
           .mk "item" [("type", "B"), ("priority", "low")] (some "Item 2") [],
           .mk "item" [("type", "A"), ("priority", "low")] (some "Item 3") []])
        (some "item") none [("type", "A"), ("priority", "low")]
      = findByContentAmended
        (.mk "root" [] none
          [.mk "item" [("type", "A"), ("priority", "high")] (some "Item 1") [],
           .mk "item" [("type", "B"), ("priority", "low")] (some "Item 2") [],
           .mk "item" [("type", "A"), ("priority", "low")] (some "Item 3") []])
        (some "item") none [("type", "A"), ("priority", "low")] ∧
    find_elements_by_content
        (.mk "root" [] none
          [.mk "item" [("type", "A"), ("priority", "high")] (some "Item 1") [],
           .mk "item" [("type", "B"), ("priority", "low")] (some "Item 2") [],
           .mk "item" [("type", "A"), ("priority", "low")] (some "Item 3") []])
        (some "item") none [("type", "A"), ("priority", "low")]
      = [Node.mk "item" [("type", "A"), ("priority", "low")] (some "Item 3") []] :=
  ⟨⟨by decide, by decide, by decide⟩,
   C4_find_by_content_scope _ (some "item") none [("type", "A"), ("priority", "low")]
     (by decide) (by decide) (by decide),
   by decide⟩

/-!
Claim C7 — path segments, stated the way the claim words them: walking from
the root down to the node, one segment per ancestor, indexed exactly when
the ancestor has more than one same-tag sibling under its own parent.
-/

/-- Segments of the path below the root, one per step of the position, each
produced by segOf at its parent. -/
def claimSegs : Node → List Nat → List String
  | _, [] => []
  | n, i :: rest =>
    match n.children[i]? with
    | none => []
    | some c => segOf n i :: claimSegs c rest

theorem validPos_append_one : ∀ (pos : List Nat) (root : Node) (i : Nat),
    validPos root (pos ++ [i]) = true →
    ∃ parent, nodeAt root pos = some parent ∧ validPos root pos = true ∧
      (parent.children[i]?).isSome = true
  | [], root, i, h => by
    refine ⟨root, rfl, rfl, ?_⟩
    cases hg : root.children[i]? with
    | none => simp [validPos, hg] at h
    | some c => simp
  | j :: pos', root, i, h => by
    cases hg : root.children[j]? with
    | none => simp [validPos, hg] at h
    | some c =>
      have h' : validPos c (pos' ++ [i]) = true := by simpa [validPos, hg] using h
      obtain ⟨parent, h1, h2, h3⟩ := validPos_append_one pos' c i h'
      exact ⟨parent, by simp [nodeAt, hg, h1], by simp [validPos, hg, h2], h3⟩

theorem claimSegs_append_one : ∀ (pos : List Nat) (root parent : Node) (i : Nat),
    nodeAt root pos = some parent → (parent.children[i]?).isSome = true →
    claimSegs root (pos ++ [i]) = claimSegs root pos ++ [segOf parent i]
  | [], root, parent, i, hn, hv => by
    simp only [nodeAt, Option.some.injEq] at hn
    subst hn
    cases h : root.children[i]? with
    | none => simp [h] at hv
    | some c => simp [claimSegs, h]
  | j :: pos', root, parent, i, hn, hv => by
    cases h : root.children[j]? with
    | none => simp [nodeAt, h] at hn
    | some c =>
      have hn' : nodeAt c pos' = some parent := by simpa [nodeAt, h] using hn
      have ih := claimSegs_append_one pos' c parent i hn' hv
      simp [claimSegs, h, ih]

/-- The source's bottom-up accumulation followed by the reverse of line 292
produces exactly the root-to-node claim segments. -/
theorem partsRev_spec (pos : List Nat) : ∀ (root : Node), validPos root pos = true →
    (partsRev root pos.reverse).reverse = root.tag :: claimSegs root pos := by
  induction pos using List.reverseRecOn with
  | nil => intro root _; rfl
  | append_singleton pos i ih =>
    intro root h
    obtain ⟨parent, h1, h2, h3⟩ := validPos_append_one pos root i h
    have hrev : (pos ++ [i]).reverse = i :: pos.reverse := by simp
    rw [hrev]
    simp only [partsRev, List.reverse_reverse, h1]
    rw [List.reverse_cons, ih root h2, claimSegs_append_one pos root parent i h1 h3]
    rfl

/-- Claim C7: for every attached node, the path is "/" followed by the
root-to-node segments joined with "/", where each segment carries a 1-based
bracketed index exactly when its ancestor has more than one same-tag sibling
under its own parent (the index being its 1-based rank among same-tag
siblings in document order) and no index otherwise; in particular the path
of the second of three item siblings is /root/item[2]. -/
theorem C7_path_segment_indexing :
    (∀ (root : Node) (pos : List Nat), validPos root pos = true →
      get_element_path root pos = "/" ++ joinSlash (root.tag :: claimSegs root pos)) ∧
    get_element_path
        (.mk "root" [] none
          [.mk "item" [] (some "A") [], .mk "item" [] (some "B") [], .mk "item" [] (some "C") []])
        [1] = "/root/item[2]" := by
  constructor
  · intro root pos h
    unfold get_element_path
    rw [partsRev_spec pos root h]
  · rfl

theorem C7_path_segment_indexing_witness :
    validPos
        (.mk "root" [] none
          [.mk "item" [] (some "A") [], .mk "item" [] (some "B") [], .mk "item" [] (some "C") []])
        [1] = true ∧
    get_element_path
        (.mk "root" [] none
          [.mk "item" [] (some "A") [], .mk "item" [] (some "B") [], .mk "item" [] (some "C") []])
        [1]
      = "/" ++ joinSlash
          ((Node.mk "root" [] none
            [.mk "item" [] (some "A") [], .mk "item" [] (some "B") [],
             .mk "item" [] (some "C") []]).tag ::
           claimSegs
            (.mk "root" [] none
              [.mk "item" [] (some "A") [], .mk "item" [] (some "B") [],
               .mk "item" [] (some "C") []])
            [1]) :=
  ⟨by decide,
   C7_path_segment_indexing.1
     (.mk "root" [] none
       [.mk "item" [] (some "A") [], .mk "item" [] (some "B") [], .mk "item" [] (some "C") []])
     [1] (by decide)⟩

/-!
Claim C6 — merge idempotence.
-/

theorem getVal_mem_nodup {α : Type} :
    ∀ (l : List (String × α)) (kv : String × α), nodupKeys l = true → kv ∈ l →
      getVal l kv.1 = some kv.2
  | [], kv, _, hm => absurd hm (by simp)
  | (k, v) :: rest, kv, hn, hm => by
    have hn' : nodupKeys rest = true ∧ ∀ kv2 ∈ rest, (kv2.1 == k) = false := by
      simp only [nodupKeys, Bool.and_eq_true, Bool.not_eq_true', List.any_eq_false] at hn
      exact ⟨hn.2, fun kv2 hm => Bool.eq_false_iff.mpr (hn.1 kv2 hm)⟩
    rcases List.mem_cons.mp hm with heq | hmem
    · subst heq
      simp [getVal]
    · have hne : (k == kv.1) = false := by
        have := hn'.2 kv hmem
        rw [beq_symm]
        exact this
      simp only [getVal, hne, Bool.false_eq_true, if_false]
      exact getVal_mem_nodup rest kv hn'.1 hmem

theorem setVal_self {α : Type} :
    ∀ (l : List (String × α)) (k : String) (v : α), getVal l k = some v → setVal l k v = l
  | [], k, v, h => by simp [getVal] at h
  | (k0, v0) :: rest, k, v, h => by
    by_cases hk : (k0 == k) = true
    · have hkk : k0 = k := by simpa using hk
      have hv : v0 = v := by
        simp only [getVal, hk, if_true, Option.some.injEq] at h
        exact h
      simp [setVal, hk, hkk, hv]
    · have hk' : (k0 == k) = false := by simpa using hk
      simp only [getVal, hk', Bool.false_eq_true, if_false] at h
      simp [setVal, hk', setVal_self rest k v h]

theorem dictUpdate_id {α : Type} :
    ∀ (upd acc : List (String × α)), (∀ kv ∈ upd, getVal acc kv.1 = some kv.2) →
      dictUpdate acc upd = acc
  | [], acc, _ => rfl
  | kv :: rest, acc, h => by
    have h0 : getVal acc kv.1 = some kv.2 := h kv (by simp)
    have hstep : (if (getVal acc kv.1).isSome then setVal acc kv.1 kv.2 else acc ++ [kv]) = acc := by
      rw [h0]
      simp only [Option.isSome_some, if_true]
      exact setVal_self acc kv.1 kv.2 h0
    show List.foldl _ _ (kv :: rest) = acc
    rw [List.foldl_cons]
    show dictUpdate (if (getVal acc kv.1).isSome then setVal acc kv.1 kv.2 else acc ++ [kv]) rest
        = acc
    rw [hstep]
    exact dictUpdate_id rest acc (fun kv2 hm => h kv2 (by simp [hm]))

theorem dictUpdate_self {α : Type} (a : List (String × α)) (h : nodupKeys a = true) :
    dictUpdate a a = a :=
  dictUpdate_id a a (fun kv hm => getVal_mem_nodup a kv h hm)

theorem nodupTags_head : ∀ (c : Node) (rest : List Node),
    nodupTags ((c :: rest).map Node.tag) = true →
    nodupTags (rest.map Node.tag) = true ∧ ∀ b ∈ rest, (b.tag == c.tag) = false := by
  intro c rest h
  simp only [List.map_cons, nodupTags, Bool.and_eq_true, Bool.not_eq_true',
    List.any_eq_false] at h
  exact ⟨h.2, fun b hb => Bool.eq_false_iff.mpr (h.1 b.tag (List.mem_map_of_mem Node.tag hb))⟩

theorem lastTagIdx_none : ∀ (cs : List Node) (t : String),
    (∀ b ∈ cs, (b.tag == t) = false) → lastTagIdx cs t = none := by
  intro cs t h
  have : (lastTagIdx cs t).isSome = false := by
    rw [lastTagIdx_isSome]
    simp only [List.any_eq_false]
    exact fun b hb => by simpa using h b hb
  exact Option.not_isSome_iff_eq_none.mp (by simp [this])

theorem lastTagIdx_nodup : ∀ (cs : List Node) (i : Nat) (c : Node),
    nodupTags (cs.map Node.tag) = true → cs[i]? = some c → lastTagIdx cs c.tag = some i
  | [], i, c, _, hg => by simp at hg
  | c0 :: rest, 0, c, hn, hg => by
    have hc : c0 = c := by simpa using hg
    subst hc
    have hnone : lastTagIdx rest c0.tag = none :=
      lastTagIdx_none rest c0.tag (nodupTags_head c0 rest hn).2
    simp [lastTagIdx, hnone]
  | c0 :: rest, i + 1, c, hn, hg => by
    have hg' : rest[i]? = some c := by simpa using hg
    have ih := lastTagIdx_nodup rest i c (nodupTags_head c0 rest hn).1 hg'
    simp [lastTagIdx, ih]

theorem set_self' {α : Type} : ∀ (l : List α) (k : Nat) (a : α), l[k]? = some a → l.set k a = l
  | [], k, a, h => by simp at h
  | x :: rest, 0, a, h => by
    have : x = a := by simpa using h
    simp [List.set, this]
  | x :: rest, k + 1, a, h => by
    simp only [List.set]
    rw [set_self' rest k a (by simpa using h)]

theorem mem_of_getElem?' {α : Type} : ∀ (l : List α) (k : Nat) (a : α), l[k]? = some a → a ∈ l
  | [], k, a, h => by simp at h
  | x :: rest, 0, a, h => by
    have : x = a := by simpa using h
    simp [this]
  | x :: rest, k + 1, a, h => by
    exact List.mem_cons_of_mem x (mem_of_getElem?' rest k a (by simpa using h))

theorem mergeLoop_self : ∀ (us orig : List Node) (k : Nat),
    us = orig.drop k →
    nodupTags (orig.map Node.tag) = true →
    (∀ c ∈ orig, mergeFull c c = (c, c)) →
    mergeLoop orig orig us = (orig, us)
  | [], orig, k, _, _, _ => rfl
  | u :: us', orig, k, hdrop, hnodup, hself => by
    have hu : orig[k]? = some u := by
      have h0 : (List.drop k orig)[0]? = some u := by rw [← hdrop]; simp
      simpa using h0
    have hus' : us' = orig.drop (k + 1) := by
      have h1 : us' = List.drop 1 (u :: us') := rfl
      rw [h1, hdrop, List.drop_drop]
    have hidx : lastTagIdx orig u.tag = some k := lastTagIdx_nodup orig k u hnodup hu
    have hmem : u ∈ orig := mem_of_getElem?' orig k u hu
    have hmf : mergeFull u u = (u, u) := hself u hmem
    have hset : orig.set k u = orig := set_self' orig k u hu
    have ih := mergeLoop_self us' orig (k + 1) hus' hnodup hself
    simp [mergeLoop, hidx, List.getD_eq_getElem?_getD, hu, hmf, hset, ih]

mutual
theorem mergeFull_self : ∀ (n : Node), mergeIdemOK n = true → mergeFull n n = (n, n)
  | .mk t a x cs, h => by
    have hh : (nodupKeys a = true ∧ nodupTags (cs.map Node.tag) = true) ∧
        mergeIdemOKList cs = true := by
      simpa [mergeIdemOK, Bool.and_eq_true] using h
    have hloop : mergeLoop cs cs cs = (cs, cs) :=
      mergeLoop_self cs cs 0 rfl hh.1.2 (mergeFull_self_list cs hh.2)
    simp [mergeFull, hloop, dictUpdate_self a hh.1.1]
theorem mergeFull_self_list : ∀ (cs : List Node), mergeIdemOKList cs = true →
    ∀ c ∈ cs, mergeFull c c = (c, c)
  | [], _, c, hm => absurd hm (by simp)
  | c0 :: rest, h, c, hm => by
    have hh : mergeIdemOK c0 = true ∧ mergeIdemOKList rest = true := by
      simpa [mergeIdemOKList, Bool.and_eq_true] using h
    rcases List.mem_cons.mp hm with heq | hmem
    · subst heq
      exact mergeFull_self c hh.1
    · exact mergeFull_self_list rest hh.2 c hmem
end

mutual
theorem compare_self : ∀ (n : Node), mergeIdemOK n = true → compare_xml_elements n n = true
  | .mk t a x cs, h => by
    have hh : (nodupKeys a = true ∧ nodupTags (cs.map Node.tag) = true) ∧
        mergeIdemOKList cs = true := by
      simpa [mergeIdemOK, Bool.and_eq_true] using h
    have hattr : attribDictEq a a = true := by
      have hall : a.all (fun kv => getVal a kv.1 == some kv.2) = true := by
        simp only [List.all_eq_true]
        intro kv hm
        simp [getVal_mem_nodup a kv hh.1.1 hm]
      simp [attribDictEq, hall]
    simp [compare_xml_elements, hattr, compare_self_list cs hh.2]
theorem compare_self_list : ∀ (cs : List Node), mergeIdemOKList cs = true →
    compareChildren cs cs = true
  | [], _ => rfl
  | c0 :: rest, h => by
    have hh : mergeIdemOK c0 = true ∧ mergeIdemOKList rest = true := by
      simpa [mergeIdemOKList, Bool.and_eq_true] using h
    simp [compareChildren, compare_self c0 hh.1, compare_self_list rest hh.2]
end

/-- Counterexample to claim C6: a tree with two same-tag children (the
first with text, the second without).  Both children of the overlay copy are
merged into the last b child of base, so that child acquires the text "t"
and the merged result is not structurally equal to T. -/
theorem C6_counterexample_repeated_tags :
    compare_xml_elements
      (merge_xml_elements (.mk "a" [] none [.mk "b" [] (some "t") [], .mk "b" [] none []])
        (.mk "a" [] none [.mk "b" [] (some "t") [], .mk "b" [] none []]))
      (.mk "a" [] none [.mk "b" [] (some "t") [], .mk "b" [] none []]) = false := by
  decide

/-- Claim C6 (amended): merging a tree with a structurally identical copy of
itself is the identity — hence structurally equal to the tree — provided
every node of the tree has pairwise distinct children tags (and, as in any
XML document, duplicate-free attribute keys).  With a repeated child tag the
property fails, because every overlay child of that tag is merged into the
one same-tag base child instead of its own counterpart. -/
theorem C6_merge_idempotent_distinct_tags (T : Node) (h : mergeIdemOK T = true) :
    compare_xml_elements (merge_xml_elements T T) T = true := by
  unfold merge_xml_elements
  rw [mergeFull_self T h]
  exact compare_self T h

theorem C6_merge_idempotent_distinct_tags_witness :
    mergeIdemOK
        (.mk "root" [] none
          [.mk "name" [] (some "Original") [], .mk "value" [("id", "1")] (some "100") []])
      = true ∧
    compare_xml_elements
        (merge_xml_elements
          (.mk "root" [] none
            [.mk "name" [] (some "Original") [], .mk "value" [("id", "1")] (some "100") []])
          (.mk "root" [] none
            [.mk "name" [] (some "Original") [], .mk "value" [("id", "1")] (some "100") []]))
        (.mk "root" [] none
          [.mk "name" [] (some "Original") [], .mk "value" [("id", "1")] (some "100") []])
      = true :=
  ⟨by decide,
   C6_merge_idempotent_distinct_tags
     (.mk "root" [] none
       [.mk "name" [] (some "Original") [], .mk "value" [("id", "1")] (some "100") []])
     (by decide)⟩

/-!
Claim C3 — codec round trip.  The rebuilt tree equals the original with
every text run trimmed (blank text dropped), which the comparator treats as
equal; the development below proves this for round-trip-safe trees and
refutes the claim on a self-closing element.
-/

/-- What survives of a text after one codec round trip: non-blank text is
stored trimmed, blank or absent text is dropped. -/
def trimText (x : Option String) : Option String :=
  if isNonBlank x then some (pyStrip (x.getD "")) else none

mutual
def trimNode : Node → Node
  | .mk t a x cs => .mk t a (trimText x) (trimNodeList cs)
def trimNodeList : List Node → List Node
  | [] => []
  | c :: cs => trimNode c :: trimNodeList cs
end

theorem dropWhile_head_false {α : Type} (p : α → Bool) :
    ∀ (l : List α) (h : α) (t : List α), l.dropWhile p = h :: t → p h = false
  | [], h, t, he => by simp at he
  | a :: l, h, t, he => by
    by_cases ha : p a = true
    · rw [List.dropWhile_cons_of_pos ha] at he
      exact dropWhile_head_false p l h t he
    · rw [List.dropWhile_cons_of_neg (by simpa using ha)] at he
      cases he
      simpa using ha

theorem dropWhile_dropWhile {α : Type} (p : α → Bool) (l : List α) :
    (l.dropWhile p).dropWhile p = l.dropWhile p := by
  cases hm : l.dropWhile p with
  | nil => rfl
  | cons h t =>
    exact List.dropWhile_cons_of_neg (by simp [dropWhile_head_false p l h t hm])

theorem trimChars_of_ends (v : List Char)
    (hhead : ∀ h t, v = h :: t → isWS h = false)
    (hlast : ∀ h t, v.reverse = h :: t → isWS h = false) :
    trimChars v = v := by
  unfold trimChars
  have h1 : v.dropWhile isWS = v := by
    cases hv : v with
    | nil => simp
    | cons h t => exact List.dropWhile_cons_of_neg (by simp [hhead h t hv])
  rw [h1]
  have h2 : v.reverse.dropWhile isWS = v.reverse := by
    cases hv : v.reverse with
    | nil => rfl
    | cons h t => exact List.dropWhile_cons_of_neg (by simp [hlast h t hv])
  rw [h2, List.reverse_reverse]

theorem trimChars_idem (l : List Char) : trimChars (trimChars l) = trimChars l := by
  apply trimChars_of_ends
  · intro h t hv
    have hv' : (List.dropWhile isWS ((List.dropWhile isWS l).reverse)).reverse = h :: t := hv
    have hsplit : List.takeWhile isWS ((List.dropWhile isWS l).reverse)
        ++ List.dropWhile isWS ((List.dropWhile isWS l).reverse)
        = (List.dropWhile isWS l).reverse := List.takeWhile_append_dropWhile isWS _
    have h2 := congrArg List.reverse hsplit
    rw [List.reverse_append, List.reverse_reverse] at h2
    rw [hv'] at h2
    exact dropWhile_head_false isWS l h _ h2.symm
  · intro h t hv
    have hv' : List.dropWhile isWS ((List.dropWhile isWS l).reverse) = h :: t := by
      have hr : (trimChars l).reverse
          = List.dropWhile isWS ((List.dropWhile isWS l).reverse) := by
        show ((List.dropWhile isWS ((List.dropWhile isWS l).reverse)).reverse).reverse = _
        rw [List.reverse_reverse]
      rw [← hr]
      exact hv
    exact dropWhile_head_false isWS _ h t hv'

theorem pyStrip_idem (s : String) : pyStrip (pyStrip s) = pyStrip s := by
  show (⟨trimChars (trimChars s.data)⟩ : String) = ⟨trimChars s.data⟩
  rw [trimChars_idem]

theorem pyStrip_blank (s : String) (h : isNonBlank (some s) = false) : pyStrip s = "" := by
  have : (pyStrip s).isEmpty = true := by
    simpa [isNonBlank] using h
  exact (String.isEmpty_iff (pyStrip s)).mp this

theorem trimNodeList_length : ∀ (cs : List Node), (trimNodeList cs).length = cs.length
  | [] => rfl
  | c :: cs => by simp [trimNodeList, trimNodeList_length cs]

theorem trimText_strip_eq (x : Option String) :
    pyStrip ((trimText x).getD "") = pyStrip (x.getD "") := by
  unfold trimText
  by_cases h : isNonBlank x = true
  · simp only [h, if_true, Option.getD_some]
    exact pyStrip_idem (x.getD "")
  · have h' : isNonBlank x = false := by simpa using h
    simp only [h', Bool.false_eq_true, if_false, Option.getD_none]
    have : pyStrip (x.getD "") = "" := by
      apply pyStrip_blank
      simpa [isNonBlank] using h'
    rw [this]
    rfl

theorem roundTripSafe_parts (t : String) (a : List (String × String)) (x : Option String)
    (cs : List Node) (h : roundTripSafe (.mk t a x cs) = true) :
    (!a.isEmpty || isNonBlank x || !cs.isEmpty) = true ∧
    nodupKeys a = true ∧
    (∀ c ∈ cs, c.tag ≠ "@attributes" ∧ c.tag ≠ "#text") ∧
    groupedTags (cs.map Node.tag) = true ∧
    roundTripSafeList cs = true := by
  simp only [roundTripSafe, Bool.and_eq_true] at h
  obtain ⟨⟨⟨⟨h1, h2⟩, h3⟩, h4⟩, h5⟩ := h
  refine ⟨h1, h2, ?_, h4, h5⟩
  intro c hc
  have hc2 := (List.all_eq_true.mp h3) c hc
  simp only [Bool.and_eq_true, bne_iff_ne] at hc2
  exact hc2

mutual
theorem compare_trim : ∀ (n : Node), roundTripSafe n = true →
    compare_xml_elements (trimNode n) n = true
  | .mk t a x cs, h => by
    obtain ⟨h1, h2, h3, h4, h5⟩ := roundTripSafe_parts t a x cs h
    have hattr : attribDictEq a a = true := by
      have hall : a.all (fun kv => getVal a kv.1 == some kv.2) = true := by
        simp only [List.all_eq_true]
        intro kv hm
        simp [getVal_mem_nodup a kv h2 hm]
      simp [attribDictEq, hall]
    have htext : (pyStrip ((trimText x).getD "") == pyStrip (x.getD "")) = true := by
      rw [trimText_strip_eq]
      simp
    simp [trimNode, compare_xml_elements, htext, hattr, trimNodeList_length,
      compare_trim_list cs h5]
theorem compare_trim_list : ∀ (cs : List Node), roundTripSafeList cs = true →
    compareChildren (trimNodeList cs) cs = true
  | [], _ => rfl
  | c :: cs, h => by
    have hh : roundTripSafe c = true ∧ roundTripSafeList cs = true := by
      simpa [roundTripSafeList, Bool.and_eq_true] using h
    simp [trimNodeList, compareChildren, compare_trim c hh.1, compare_trim_list cs hh.2]
end

/-!
Dictionary lemmas on map entries, used to track the codec's children dict.
-/

def nodupKeysE : List MapEntry → Bool
  | [] => true
  | e :: rest => !(rest.any (fun e2 => e2.key == e.key)) && nodupKeysE rest

theorem getEV_append_some : ∀ (l1 l2 : List MapEntry) (k : String) (v : MapValue),
    getEV l1 k = some v → getEV (l1 ++ l2) k = some v
  | [], _, _, _, h => by simp [getEV] at h
  | .mk k0 v0 :: rest, l2, k, v, h => by
    by_cases hk : (k0 == k) = true
    · simp only [getEV, hk, if_true, Option.some.injEq] at h
      simp [getEV, hk, h]
    · have hk' : (k0 == k) = false := by simpa using hk
      simp only [getEV, hk', Bool.false_eq_true, if_false] at h
      simpa [getEV, hk'] using getEV_append_some rest l2 k v h

theorem getEV_append_none : ∀ (l1 l2 : List MapEntry) (k : String),
    getEV l1 k = none → getEV (l1 ++ l2) k = getEV l2 k
  | [], _, _, _ => rfl
  | .mk k0 v0 :: rest, l2, k, h => by
    by_cases hk : (k0 == k) = true
    · simp [getEV, hk] at h
    · have hk' : (k0 == k) = false := by simpa using hk
      simp only [getEV, hk', Bool.false_eq_true, if_false] at h
      simpa [getEV, hk'] using getEV_append_none rest l2 k h

theorem getEV_setEV_ne : ∀ (l : List MapEntry) (k k2 : String) (v : MapValue),
    k2 ≠ k → getEV (setEV l k v) k2 = getEV l k2
  | [], _, _, _, _ => rfl
  | .mk k0 v0 :: rest, k, k2, v, hne => by
    by_cases hk : (k0 == k) = true
    · have hk0 : k0 = k := by simpa using hk
      have hne2 : (k == k2) = false := by
        simp only [beq_eq_false_iff_ne]
        exact fun he => hne he.symm
      have hne3 : (k0 == k2) = false := by rw [hk0]; exact hne2
      simp [setEV, hk, getEV, hne2, hne3]
    · have hk' : (k0 == k) = false := by simpa using hk
      by_cases hk2 : (k0 == k2) = true
      · simp [setEV, hk', getEV, hk2]
      · have hk2' : (k0 == k2) = false := by simpa using hk2
        simp [setEV, hk', getEV, hk2', getEV_setEV_ne rest k k2 v hne]

theorem addChildEntry_getEV_ne (acc : List MapEntry) (t : String) (v : MapValue) (k : String)
    (hk : k ≠ t) : getEV (addChildEntry acc t v) k = getEV acc k := by
  unfold addChildEntry
  have hsingle : getEV [MapEntry.mk t v] k = none := by
    have : (t == k) = false := by
      simp only [beq_eq_false_iff_ne]
      exact fun he => hk he.symm
    simp [getEV, this]
  cases hg : getEV acc t with
  | none =>
    cases hk2 : getEV acc k with
    | none => rw [getEV_append_none acc [MapEntry.mk t v] k hk2, hsingle]
    | some v2 => rw [getEV_append_some acc [MapEntry.mk t v] k v2 hk2]
  | some old =>
    cases old with
    | seq l => exact getEV_setEV_ne acc t k _ hk
    | null => exact getEV_setEV_ne acc t k _ hk
    | str s => exact getEV_setEV_ne acc t k _ hk
    | int n => exact getEV_setEV_ne acc t k _ hk
    | map m => exact getEV_setEV_ne acc t k _ hk

theorem buildChildrenDict_getEV_none : ∀ (pairs acc : List MapEntry) (k : String),
    getEV acc k = none → (∀ e ∈ pairs, e.key ≠ k) →
    getEV (buildChildrenDict acc pairs) k = none
  | [], acc, k, hacc, _ => hacc
  | .mk t v :: rest, acc, k, hacc, hp => by
    have ht : t ≠ k := hp (.mk t v) (by simp)
    have hstep : getEV (addChildEntry acc t v) k = getEV acc k :=
      addChildEntry_getEV_ne acc t v k (fun he => ht he.symm)
    exact buildChildrenDict_getEV_none rest (addChildEntry acc t v) k (hstep.trans hacc)
      (fun e hm => hp e (by simp [hm]))

theorem dictUpdateEV_disjoint : ∀ (upd base : List MapEntry),
    (∀ e ∈ upd, getEV base e.key = none) → nodupKeysE upd = true →
    dictUpdateEV base upd = base ++ upd
  | [], base, _, _ => by simp [dictUpdateEV]
  | e :: rest, base, hdisj, hnodup => by
    have hn : (∀ e2 ∈ rest, (e2.key == e.key) = false) ∧ nodupKeysE rest = true := by
      simp only [nodupKeysE, Bool.and_eq_true, Bool.not_eq_true', List.any_eq_false] at hnodup
      exact ⟨fun e2 hm => Bool.eq_false_iff.mpr (hnodup.1 e2 hm), hnodup.2⟩
    have h0 : getEV base e.key = none := hdisj e (by simp)
    show List.foldl _ _ (e :: rest) = base ++ e :: rest
    rw [List.foldl_cons]
    have hstep : (if (getEV base e.key).isSome then setEV base e.key e.val else base ++ [e])
        = base ++ [e] := by
      rw [h0]
      rfl
    show dictUpdateEV
        (if (getEV base e.key).isSome then setEV base e.key e.val else base ++ [e]) rest
      = base ++ e :: rest
    rw [hstep]
    have hdisj2 : ∀ e2 ∈ rest, getEV (base ++ [e]) e2.key = none := by
      intro e2 hm
      rw [getEV_append_none base [e] e2.key (hdisj e2 (by simp [hm]))]
      have : (e.key == e2.key) = false := by
        rw [beq_symm]
        exact hn.1 e2 hm
      cases e with
      | mk ek ev => simp [getEV, MapEntry.key] at this ⊢; simp [this]
    rw [dictUpdateEV_disjoint rest (base ++ [e]) hdisj2 hn.2, List.append_assoc,
      List.singleton_append]

theorem encodeChildren_append : ∀ (l1 l2 : List Node),
    encodeChildren (l1 ++ l2) = encodeChildren l1 ++ encodeChildren l2
  | [], _ => rfl
  | c :: cs, l2 => by simp [encodeChildren, encodeChildren_append cs l2]

theorem encodeChildren_key_mem : ∀ (cs : List Node) (e : MapEntry),
    e ∈ encodeChildren cs → ∃ c ∈ cs, e.key = c.tag
  | [], e, hm => absurd hm (by simp [encodeChildren])
  | c :: cs, e, hm => by
    rcases List.mem_cons.mp hm with heq | hmem
    · exact ⟨c, by simp, by rw [heq]; rfl⟩
    · obtain ⟨c2, hc2, hk⟩ := encodeChildren_key_mem cs e hmem
      exact ⟨c2, by simp [hc2], hk⟩

theorem xml_to_dict_not_seq (n : Node) : ∀ (l : List MapValue), xml_to_dict n ≠ .seq l := by
  obtain ⟨t, a, x, cs⟩ := n
  intro l h
  simp only [xml_to_dict] at h
  split at h
  · simp at h
  · split at h
    · split at h
      · simp at h
      · simp at h
    · simp at h

theorem grouped_drop : ∀ (rest : List String) (t : String), groupedTags (t :: rest) = true →
    ((rest.dropWhile (fun s => s == t)).any (fun s => s == t)) = false ∧
    groupedTags (rest.dropWhile (fun s => s == t)) = true
  | [], _, _ => ⟨rfl, rfl⟩
  | s :: rest', t, h => by
    have hh : (t == s || !((s :: rest').any (fun r => r == t))) = true ∧
        groupedTags (s :: rest') = true := by
      simpa [groupedTags, Bool.and_eq_true] using h
    by_cases hst : (s == t) = true
    · have hts : s = t := by simpa using hst
      rw [List.dropWhile_cons]
      simp only [hst, if_true]
      have h2 : groupedTags (t :: rest') = true := by rw [← hts]; exact hh.2
      exact grouped_drop rest' t h2
    · have hst' : (s == t) = false := by simpa using hst
      rw [List.dropWhile_cons]
      simp only [hst', Bool.false_eq_true, if_false]
      constructor
      · have hts : (t == s) = false := by rw [beq_symm]; exact hst'
        have h1 := hh.1
        rw [hts] at h1
        simpa using h1
      · exact hh.2

theorem map_dropWhile_tag : ∀ (l : List Node) (t : String),
    (l.map Node.tag).dropWhile (fun s => s == t) = (l.dropWhile (fun b => b.tag == t)).map Node.tag
  | [], _ => rfl
  | b :: l, t => by
    by_cases hb : (b.tag == t) = true
    · rw [List.map_cons, List.dropWhile_cons, List.dropWhile_cons]
      simp only [hb, if_true]
      exact map_dropWhile_tag l t
    · have hb' : (b.tag == t) = false := by simpa using hb
      rw [List.map_cons, List.dropWhile_cons, List.dropWhile_cons]
      simp only [hb', Bool.false_eq_true, if_false, List.map_cons]

theorem buildChildrenDict_append : ∀ (l1 l2 acc : List MapEntry),
    buildChildrenDict acc (l1 ++ l2) = buildChildrenDict (buildChildrenDict acc l1) l2
  | [], _, _ => rfl
  | .mk t v :: rest, l2, acc => by
    show buildChildrenDict (addChildEntry acc t v) (rest ++ l2) = _
    exact buildChildrenDict_append rest l2 (addChildEntry acc t v)

theorem buildChildrenDict_cons_protected : ∀ (pairs : List MapEntry) (e : MapEntry)
    (acc : List MapEntry), (∀ p ∈ pairs, p.key ≠ e.key) →
    buildChildrenDict (e :: acc) pairs = e :: buildChildrenDict acc pairs
  | [], _, _, _ => rfl
  | .mk t v :: rest, e, acc, hp => by
    have ht : t ≠ e.key := hp (.mk t v) (by simp)
    have hstep : addChildEntry (e :: acc) t v = e :: addChildEntry acc t v := by
      cases e with
      | mk ek ev =>
        have hek : (ek == t) = false := by
          simp only [beq_eq_false_iff_ne]
          intro he
          exact ht (by simpa [MapEntry.key] using he.symm)
        have hget : getEV (MapEntry.mk ek ev :: acc) t = getEV acc t := by
          simp [getEV, hek]
        unfold addChildEntry
        rw [hget]
        cases hg : getEV acc t with
        | none => simp
        | some old => cases old <;> simp [setEV, hek]
    show buildChildrenDict (addChildEntry (e :: acc) t v) rest = _
    rw [hstep]
    exact buildChildrenDict_cons_protected rest e (addChildEntry acc t v)
      (fun p hm => hp p (by simp [hm]))

theorem addChildEntry_wrap (t : String) (v v2 : MapValue) (hv : ∀ lv, v ≠ .seq lv) :
    addChildEntry [MapEntry.mk t v] t v2 = [MapEntry.mk t (.seq [v, v2])] := by
  have hg : getEV [MapEntry.mk t v] t = some v := by simp [getEV]
  unfold addChildEntry
  rw [hg]
  cases v with
  | seq lv => exact absurd rfl (hv lv)
  | null => simp [setEV]
  | str s => simp [setEV]
  | int n => simp [setEV]
  | map m => simp [setEV]

theorem buildChildrenDict_block_seq : ∀ (bs : List Node) (t : String) (l : List MapValue),
    (∀ b ∈ bs, b.tag = t) →
    buildChildrenDict [MapEntry.mk t (.seq l)] (encodeChildren bs)
      = [MapEntry.mk t (.seq (l ++ bs.map xml_to_dict))]
  | [], t, l, _ => by simp [encodeChildren, buildChildrenDict]
  | b :: bs, t, l, hb => by
    have hbt : b.tag = t := hb b (by simp)
    have hstep : addChildEntry [MapEntry.mk t (.seq l)] b.tag (xml_to_dict b)
        = [MapEntry.mk t (.seq (l ++ [xml_to_dict b]))] := by
      have hg : getEV [MapEntry.mk t (.seq l)] b.tag = some (.seq l) := by
        simp [getEV, hbt]
      unfold addChildEntry
      rw [hg]
      simp [setEV, hbt]
    show buildChildrenDict (addChildEntry [MapEntry.mk t (.seq l)] b.tag (xml_to_dict b))
        (encodeChildren bs) = _
    rw [hstep, buildChildrenDict_block_seq bs t (l ++ [xml_to_dict b])
      (fun b2 hm => hb b2 (by simp [hm]))]
    simp

/-- The dict value a contiguous same-tag block of children produces: the
single encoded child, or the ordered list of encoded children. -/
def blockValue (c : Node) (bs : List Node) : MapValue :=
  match bs with
  | [] => xml_to_dict c
  | _ :: _ => .seq (xml_to_dict c :: bs.map xml_to_dict)

theorem buildChildrenDict_block (c : Node) (bs : List Node)
    (hb : ∀ b ∈ bs, b.tag = c.tag) :
    buildChildrenDict [] (encodeChildren (c :: bs)) = [MapEntry.mk c.tag (blockValue c bs)] := by
  have h0 : addChildEntry [] c.tag (xml_to_dict c) = [MapEntry.mk c.tag (xml_to_dict c)] := by
    simp [addChildEntry, getEV]
  show buildChildrenDict (addChildEntry [] c.tag (xml_to_dict c)) (encodeChildren bs) = _
  rw [h0]
  cases bs with
  | nil => simp [encodeChildren, buildChildrenDict, blockValue]
  | cons b bs' =>
    have hbt : b.tag = c.tag := hb b (by simp)
    show buildChildrenDict [MapEntry.mk c.tag (xml_to_dict c)]
        (MapEntry.mk b.tag (xml_to_dict b) :: encodeChildren bs') = _
    show buildChildrenDict
        (addChildEntry [MapEntry.mk c.tag (xml_to_dict c)] b.tag (xml_to_dict b))
        (encodeChildren bs') = _
    rw [hbt, addChildEntry_wrap c.tag (xml_to_dict c) (xml_to_dict b) (xml_to_dict_not_seq c)]
    rw [buildChildrenDict_block_seq bs' c.tag [xml_to_dict c, xml_to_dict b]
      (fun b2 hm => hb b2 (by simp [hm]))]
    simp [blockValue]

theorem buildSeq_eq_map : ∀ (k : String) (vs : List MapValue),
    buildSeq k vs = vs.map (build_element k)
  | _, [] => rfl
  | k, v :: vs => by simp [buildSeq, buildSeq_eq_map k vs]

theorem trimNodeList_eq_map : ∀ (cs : List Node), trimNodeList cs = cs.map trimNode
  | [] => rfl
  | c :: cs => by simp [trimNodeList, trimNodeList_eq_map cs]

theorem buildEntries_cons_skip (k : String) (v : MapValue) (rest : List MapEntry)
    (hk : k = "@attributes" ∨ k = "#text") :
    buildEntries (.mk k v :: rest) = buildEntries rest := by
  have hc : (k == "@attributes" || k == "#text") = true := by
    rcases hk with h | h <;> simp [h]
  cases v <;> simp [buildEntries, hc]

theorem buildEntries_cons_seq (k : String) (items : List MapValue) (rest : List MapEntry)
    (hk1 : k ≠ "@attributes") (hk2 : k ≠ "#text") :
    buildEntries (.mk k (.seq items) :: rest) = buildSeq k items ++ buildEntries rest := by
  have hc : (k == "@attributes" || k == "#text") = false := by simp [hk1, hk2]
  simp [buildEntries, hc]

theorem buildEntries_cons_nonseq (k : String) (v : MapValue) (rest : List MapEntry)
    (hk1 : k ≠ "@attributes") (hk2 : k ≠ "#text") (hv : ∀ l, v ≠ .seq l) :
    buildEntries (.mk k v :: rest) = build_element k v :: buildEntries rest := by
  have hc : (k == "@attributes" || k == "#text") = false := by simp [hk1, hk2]
  cases v with
  | seq l => exact absurd rfl (hv l)
  | null => simp [buildEntries, hc]
  | str s => simp [buildEntries, hc]
  | int n => simp [buildEntries, hc]
  | map m => simp [buildEntries, hc]

/-- Children of a round-trip-safe node survive the encode/group/rebuild
pipeline: encoding the children, grouping them by tag and rebuilding one
node per grouped value yields the trimmed children, in order. -/
theorem rebuildChildren : ∀ (fuel : Nat) (cs : List Node), cs.length ≤ fuel →
    groupedTags (cs.map Node.tag) = true →
    (∀ c ∈ cs, c.tag ≠ "@attributes" ∧ c.tag ≠ "#text") →
    (∀ c ∈ cs, build_element c.tag (xml_to_dict c) = trimNode c) →
    buildEntries (buildChildrenDict [] (encodeChildren cs)) = trimNodeList cs
  | _, [], _, _, _, _ => rfl
  | 0, c :: rest, hlen, _, _, _ => absurd hlen (by simp)
  | fuel + 1, c :: rest, hlen, hg, hres, hbuild => by
    have hsplit : rest.takeWhile (fun b => b.tag == c.tag)
        ++ rest.dropWhile (fun b => b.tag == c.tag) = rest :=
      List.takeWhile_append_dropWhile _ _
    have htags_bt : ∀ b ∈ rest.takeWhile (fun b => b.tag == c.tag), b.tag = c.tag := by
      intro b hm
      have := List.mem_takeWhile_imp hm
      simpa using this
    have hgd := grouped_drop (rest.map Node.tag) c.tag (by simpa using hg)
    rw [map_dropWhile_tag rest c.tag] at hgd
    have hafne : ∀ b ∈ rest.dropWhile (fun b => b.tag == c.tag), b.tag ≠ c.tag := by
      intro b hm heq
      have hmem : b.tag ∈ (rest.dropWhile (fun b => b.tag == c.tag)).map Node.tag :=
        List.mem_map_of_mem Node.tag hm
      have hfalse := List.any_eq_false.mp hgd.1 b.tag hmem
      exact hfalse (by simp [heq])
    have hmem_bt : ∀ b ∈ rest.takeWhile (fun b => b.tag == c.tag), b ∈ c :: rest := by
      intro b hm
      apply List.mem_cons_of_mem
      rw [← hsplit]
      exact List.mem_append_left _ hm
    have hmem_af : ∀ b ∈ rest.dropWhile (fun b => b.tag == c.tag), b ∈ c :: rest := by
      intro b hm
      apply List.mem_cons_of_mem
      rw [← hsplit]
      exact List.mem_append_right _ hm
    have hcons : c :: rest = (c :: rest.takeWhile (fun b => b.tag == c.tag))
        ++ rest.dropWhile (fun b => b.tag == c.tag) := by
      rw [List.cons_append, hsplit]
    have hkeys_af : ∀ p ∈ encodeChildren (rest.dropWhile (fun b => b.tag == c.tag)),
        p.key ≠ (MapEntry.mk c.tag (blockValue c (rest.takeWhile (fun b => b.tag == c.tag)))).key := by
      intro p hp
      obtain ⟨b, hb, hk⟩ := encodeChildren_key_mem _ p hp
      show p.key ≠ c.tag
      rw [hk]
      exact hafne b hb
    have hdict : buildChildrenDict [] (encodeChildren (c :: rest))
        = MapEntry.mk c.tag (blockValue c (rest.takeWhile (fun b => b.tag == c.tag)))
          :: buildChildrenDict [] (encodeChildren (rest.dropWhile (fun b => b.tag == c.tag))) := by
      rw [hcons, encodeChildren_append, buildChildrenDict_append,
        buildChildrenDict_block c _ htags_bt]
      exact buildChildrenDict_cons_protected _ _ [] hkeys_af
    have hlen_af : (rest.dropWhile (fun b => b.tag == c.tag)).length ≤ fuel := by
      have h1 : rest.length ≤ fuel := by
        have := hlen
        simp only [List.length_cons] at this
        omega
      exact Nat.le_trans (length_dropWhile_le _ rest) h1
    have ih := rebuildChildren fuel (rest.dropWhile (fun b => b.tag == c.tag)) hlen_af hgd.2
      (fun b hm => hres b (hmem_af b hm)) (fun b hm => hbuild b (hmem_af b hm))
    have hcres := hres c (by simp)
    have htrim : trimNodeList (c :: rest)
        = trimNode c :: ((rest.takeWhile (fun b => b.tag == c.tag)).map trimNode
          ++ (rest.dropWhile (fun b => b.tag == c.tag)).map trimNode) := by
      rw [trimNodeList_eq_map]
      conv_lhs => rw [← hsplit]
      rw [List.map_cons, List.map_append]
    rw [hdict]
    cases hbt : rest.takeWhile (fun b => b.tag == c.tag) with
    | nil =>
      rw [hbt] at htrim
      have hbv : blockValue c [] = xml_to_dict c := rfl
      rw [hbv, buildEntries_cons_nonseq c.tag (xml_to_dict c) _ hcres.1 hcres.2
        (xml_to_dict_not_seq c), ih, hbuild c (by simp), htrim, trimNodeList_eq_map]
      simp
    | cons b bs' =>
      rw [hbt] at htrim
      have hbv : blockValue c (b :: bs') = .seq (xml_to_dict c :: (b :: bs').map xml_to_dict) :=
        rfl
      rw [hbv, buildEntries_cons_seq c.tag _ _ hcres.1 hcres.2, ih, buildSeq_eq_map, htrim]
      have hmap : (xml_to_dict c :: (b :: bs').map xml_to_dict).map (build_element c.tag)
          = trimNode c :: (b :: bs').map trimNode := by
        rw [List.map_cons, hbuild c (by simp), List.map_map]
        congr 1
        apply List.map_congr_left
        intro b2 hb2
        have hb2' : b2 ∈ rest.takeWhile (fun bb => bb.tag == c.tag) := by rw [hbt]; exact hb2
        have ht2 : b2.tag = c.tag := htags_bt b2 hb2'
        show build_element c.tag (xml_to_dict b2) = trimNode b2
        rw [← ht2]
        exact hbuild b2 (hmem_bt b2 hb2')
      rw [hmap, trimNodeList_eq_map]
      simp

theorem setEV_keys : ∀ (l : List MapEntry) (k : String) (v : MapValue),
    (setEV l k v).map MapEntry.key = l.map MapEntry.key
  | [], _, _ => rfl
  | .mk k0 v0 :: rest, k, v => by
    by_cases hk : (k0 == k) = true
    · have : k0 = k := by simpa using hk
      simp [setEV, hk, MapEntry.key, this]
    · have hk' : (k0 == k) = false := by simpa using hk
      simp [setEV, hk', MapEntry.key, setEV_keys rest k v]

theorem getEV_none_keys : ∀ (l : List MapEntry) (k : String),
    getEV l k = none → ∀ e ∈ l, e.key ≠ k
  | [], _, _, e, hm => absurd hm (by simp)
  | .mk k0 v0 :: rest, k, h, e, hm => by
    by_cases hk : (k0 == k) = true
    · simp [getEV, hk] at h
    · have hk' : (k0 == k) = false := by simpa using hk
      simp only [getEV, hk', Bool.false_eq_true, if_false] at h
      rcases List.mem_cons.mp hm with heq | hmem
      · subst heq
        show k0 ≠ k
        simpa using hk'
      · exact getEV_none_keys rest k h e hmem

theorem any_key_eq : ∀ (l : List MapEntry) (k : String),
    l.any (fun e => e.key == k) = (l.map MapEntry.key).any (fun s => s == k)
  | [], _ => rfl
  | e :: rest, k => by simp [any_key_eq rest k]

theorem nodupKeysE_of_keys : ∀ (l1 l2 : List MapEntry),
    l1.map MapEntry.key = l2.map MapEntry.key → nodupKeysE l1 = nodupKeysE l2
  | [], [], _ => rfl
  | [], _ :: _, h => by simp at h
  | _ :: _, [], h => by simp at h
  | e1 :: r1, e2 :: r2, h => by
    have hk : e1.key = e2.key := by simpa using congrArg (fun l => l.headD "") h
    have ht : r1.map MapEntry.key = r2.map MapEntry.key := by
      have := congrArg List.tail h
      simpa using this
    have hany : r1.any (fun e => e.key == e1.key) = r2.any (fun e => e.key == e2.key) := by
      rw [any_key_eq r1 e1.key, any_key_eq r2 e2.key, ht, hk]
    simp [nodupKeysE, hany, nodupKeysE_of_keys r1 r2 ht]

theorem nodupKeysE_append_one : ∀ (l : List MapEntry) (e : MapEntry),
    nodupKeysE l = true → (∀ e2 ∈ l, e2.key ≠ e.key) → nodupKeysE (l ++ [e]) = true
  | [], e, _, _ => by simp [nodupKeysE]
  | e0 :: rest, e, hn, hne => by
    have hh : rest.any (fun e2 => e2.key == e0.key) = false ∧ nodupKeysE rest = true := by
      simpa [nodupKeysE, Bool.and_eq_true] using hn
    have hany : (rest ++ [e]).any (fun e2 => e2.key == e0.key) = false := by
      rw [List.any_append]
      simp only [hh.1, Bool.false_or, List.any_cons, List.any_nil, Bool.or_false]
      have : e.key ≠ e0.key := fun hcon => (hne e0 (by simp)) hcon.symm
      simpa using this
    have hrest : nodupKeysE (rest ++ [e]) = true :=
      nodupKeysE_append_one rest e hh.2 (fun e2 hm => hne e2 (by simp [hm]))
    simp [nodupKeysE, hany, hrest]

theorem addChildEntry_nodup (acc : List MapEntry) (t : String) (v : MapValue)
    (h : nodupKeysE acc = true) : nodupKeysE (addChildEntry acc t v) = true := by
  unfold addChildEntry
  cases hg : getEV acc t with
  | none =>
    exact nodupKeysE_append_one acc (.mk t v) h
      (fun e2 hm => getEV_none_keys acc t hg e2 hm)
  | some old =>
    have hkeys : ∀ (nv : MapValue), nodupKeysE (setEV acc t nv) = true := by
      intro nv
      rw [nodupKeysE_of_keys (setEV acc t nv) acc (setEV_keys acc t nv)]
      exact h
    cases old <;> simp [hkeys]

theorem buildChildrenDict_nodup : ∀ (pairs acc : List MapEntry),
    nodupKeysE acc = true → nodupKeysE (buildChildrenDict acc pairs) = true
  | [], _, h => h
  | .mk t v :: rest, acc, h =>
    buildChildrenDict_nodup rest (addChildEntry acc t v) (addChildEntry_nodup acc t v h)

theorem setEV_length : ∀ (l : List MapEntry) (k : String) (v : MapValue),
    (setEV l k v).length = l.length
  | [], _, _ => rfl
  | .mk k0 v0 :: rest, k, v => by
    by_cases hk : (k0 == k) = true
    · simp [setEV, hk]
    · have hk' : (k0 == k) = false := by simpa using hk
      simp [setEV, hk', setEV_length rest k v]

theorem addChildEntry_length_ge (acc : List MapEntry) (t : String) (v : MapValue) :
    acc.length ≤ (addChildEntry acc t v).length := by
  unfold addChildEntry
  cases hg : getEV acc t with
  | none => simp
  | some old => cases old <;> simp [setEV_length]

theorem buildChildrenDict_length_ge : ∀ (pairs acc : List MapEntry),
    acc.length ≤ (buildChildrenDict acc pairs).length
  | [], _ => Nat.le_refl _
  | .mk t v :: rest, acc =>
    Nat.le_trans (addChildEntry_length_ge acc t v)
      (buildChildrenDict_length_ge rest (addChildEntry acc t v))

theorem buildChildrenDict_empty : ∀ (cs : List Node),
    (buildChildrenDict [] (encodeChildren cs)).isEmpty = true → cs = []
  | [], _ => rfl
  | c :: rest, h => by
    exfalso
    have h1 : 1 ≤ (buildChildrenDict (addChildEntry [] c.tag (xml_to_dict c))
        (encodeChildren rest)).length := by
      have h0 : (addChildEntry [] c.tag (xml_to_dict c)).length = 1 := by
        simp [addChildEntry, getEV]
      calc 1 = (addChildEntry [] c.tag (xml_to_dict c)).length := h0.symm
        _ ≤ _ := buildChildrenDict_length_ge (encodeChildren rest) _
    have h2 : buildChildrenDict [] (encodeChildren (c :: rest))
        = buildChildrenDict (addChildEntry [] c.tag (xml_to_dict c)) (encodeChildren rest) :=
      rfl
    rw [h2] at h
    rw [List.isEmpty_iff] at h
    rw [h] at h1
    simp at h1

theorem setEV_mem : ∀ (l : List MapEntry) (k : String) (v : MapValue) (e : MapEntry),
    e ∈ setEV l k v → e ∈ l ∨ e.key = k
  | [], _, _, e, hm => absurd hm (by simp [setEV])
  | .mk k0 v0 :: rest, k, v, e, hm => by
    by_cases hk : (k0 == k) = true
    · rw [setEV] at hm
      rw [if_pos hk] at hm
      rcases List.mem_cons.mp hm with heq | hmem
      · right
        rw [heq]
        rfl
      · exact Or.inl (List.mem_cons_of_mem _ hmem)
    · have hk' : (k0 == k) = false := by simpa using hk
      rw [setEV] at hm
      rw [if_neg (by simp [hk'])] at hm
      rcases List.mem_cons.mp hm with heq | hmem
      · exact Or.inl (by simp [heq])
      · rcases setEV_mem rest k v e hmem with h1 | h2
        · exact Or.inl (List.mem_cons_of_mem _ h1)
        · exact Or.inr h2

theorem addChildEntry_mem (acc : List MapEntry) (t : String) (v : MapValue) (e : MapEntry)
    (hm : e ∈ addChildEntry acc t v) : e ∈ acc ∨ e.key = t := by
  rw [addChildEntry] at hm
  revert hm
  cases hg : getEV acc t with
  | none =>
    intro hm
    rcases List.mem_append.mp hm with h1 | h2
    · exact Or.inl h1
    · right
      have : e = .mk t v := by simpa using h2
      rw [this]
      rfl
  | some old =>
    cases old <;> exact fun hm => setEV_mem acc t _ e hm

theorem buildChildrenDict_mem : ∀ (pairs acc : List MapEntry) (e : MapEntry),
    e ∈ buildChildrenDict acc pairs → e ∈ acc ∨ ∃ p ∈ pairs, e.key = p.key
  | [], acc, e, hm => Or.inl hm
  | .mk t v :: rest, acc, e, hm => by
    rcases buildChildrenDict_mem rest (addChildEntry acc t v) e hm with h1 | h2
    · rcases addChildEntry_mem acc t v e h1 with h3 | h4
      · exact Or.inl h3
      · exact Or.inr ⟨.mk t v, by simp, h4⟩
    · obtain ⟨p, hp, hk⟩ := h2
      exact Or.inr ⟨p, by simp [hp], hk⟩

theorem attrs_roundtrip : ∀ (a : List (String × String)),
    ((a.map (fun kv => MapEntry.mk kv.1 (.str kv.2))).map (fun e => (e.key, pyStr e.val))) = a
  | [] => rfl
  | kv :: rest => by
    simp only [List.map_cons]
    rw [attrs_roundtrip rest]
    simp [MapEntry.key, MapEntry.val, pyStr]

/-- Rebuilding from a map-shaped codec result: the "@attributes" entry
restores the attributes, the "#text" entry restores the trimmed text, and
the grouped children entries rebuild the trimmed children. -/
theorem build_map_result (t : String) (a : List (String × String)) (x : Option String)
    (cs : List Node)
    (hres : ∀ c ∈ cs, c.tag ≠ "@attributes" ∧ c.tag ≠ "#text")
    (hgrp : groupedTags (cs.map Node.tag) = true)
    (hbuild : ∀ c ∈ cs, build_element c.tag (xml_to_dict c) = trimNode c) :
    build_element t (.map (dictUpdateEV
        ((if a.isEmpty then [] else
            [.mk "@attributes" (.map (a.map (fun kv => .mk kv.1 (.str kv.2))))]) ++
         (if isNonBlank x then [.mk "#text" (.str (pyStrip (x.getD "")))] else []))
        (buildChildrenDict [] (encodeChildren cs))))
      = .mk t a (trimText x) (trimNodeList cs) := by
  have hcdkeys : ∀ e ∈ buildChildrenDict [] (encodeChildren cs),
      e.key ≠ "@attributes" ∧ e.key ≠ "#text" := by
    intro e he
    rcases buildChildrenDict_mem (encodeChildren cs) [] e he with h0 | h1
    · simp at h0
    · obtain ⟨p, hp, hk⟩ := h1
      obtain ⟨c, hc, hpk⟩ := encodeChildren_key_mem cs p hp
      rw [hk, hpk]
      exact hres c hc
  have hcd_attr : getEV (buildChildrenDict [] (encodeChildren cs)) "@attributes" = none := by
    apply buildChildrenDict_getEV_none (encodeChildren cs) [] "@attributes" rfl
    intro e hp
    obtain ⟨c, hc, hk⟩ := encodeChildren_key_mem cs e hp
    rw [hk]
    exact (hres c hc).1
  have hcd_text : getEV (buildChildrenDict [] (encodeChildren cs)) "#text" = none := by
    apply buildChildrenDict_getEV_none (encodeChildren cs) [] "#text" rfl
    intro e hp
    obtain ⟨c, hc, hk⟩ := encodeChildren_key_mem cs e hp
    rw [hk]
    exact (hres c hc).2
  have hnodupcd : nodupKeysE (buildChildrenDict [] (encodeChildren cs)) = true :=
    buildChildrenDict_nodup (encodeChildren cs) [] rfl
  have hEnt := rebuildChildren cs.length cs (Nat.le_refl _) hgrp hres hbuild
  by_cases hA : a.isEmpty = true
  · have ha : a = [] := by simpa using hA
    subst ha
    by_cases hX : isNonBlank x = true
    · have hdisj : ∀ e ∈ buildChildrenDict [] (encodeChildren cs),
          getEV [MapEntry.mk "#text" (.str (pyStrip (x.getD "")))] e.key = none := by
        intro e he
        have h2 : ("#text" == e.key) = false := by
          simp only [beq_eq_false_iff_ne]
          exact fun hc => (hcdkeys e he).2 hc.symm
        simp [getEV, h2]
      simp only [hA, if_true, hX, List.nil_append]
      rw [dictUpdateEV_disjoint _ _ hdisj hnodupcd, List.singleton_append]
      have g1 : getEV (MapEntry.mk "#text" (MapValue.str (pyStrip (x.getD "")))
          :: buildChildrenDict [] (encodeChildren cs)) "@attributes" = none := by
        simp [getEV, hcd_attr]
      have g2 : getEV (MapEntry.mk "#text" (MapValue.str (pyStrip (x.getD "")))
          :: buildChildrenDict [] (encodeChildren cs)) "#text"
          = some (.str (pyStrip (x.getD ""))) := by
        simp [getEV]
      simp only [build_element, g1, g2, Option.map_some]
      rw [buildEntries_cons_skip _ _ _ (Or.inr rfl), hEnt]
      simp [trimText, hX, pyStr]
    · have hX' : isNonBlank x = false := by simpa using hX
      simp only [hA, if_true, hX', Bool.false_eq_true, if_false, List.nil_append,
        List.append_nil]
      rw [dictUpdateEV_disjoint _ _ (by intro e he; rfl) hnodupcd, List.nil_append]
      simp only [build_element, hcd_attr, hcd_text, Option.map_none]
      rw [hEnt]
      simp [trimText, hX']
  · have hA' : a.isEmpty = false := by simpa using hA
    by_cases hX : isNonBlank x = true
    · have hdisj : ∀ e ∈ buildChildrenDict [] (encodeChildren cs),
          getEV ([MapEntry.mk "@attributes" (.map (a.map (fun kv => .mk kv.1 (.str kv.2))))]
            ++ [MapEntry.mk "#text" (.str (pyStrip (x.getD "")))]) e.key = none := by
        intro e he
        have h1 : ("@attributes" == e.key) = false := by
          simp only [beq_eq_false_iff_ne]
          exact fun hc => (hcdkeys e he).1 hc.symm
        have h2 : ("#text" == e.key) = false := by
          simp only [beq_eq_false_iff_ne]
          exact fun hc => (hcdkeys e he).2 hc.symm
        simp [getEV, h1, h2]
      simp only [hA', Bool.false_eq_true, if_false, hX, if_true]
      rw [dictUpdateEV_disjoint _ _ hdisj hnodupcd]
      have hshape : [MapEntry.mk "@attributes" (.map (a.map (fun kv => .mk kv.1 (.str kv.2))))]
          ++ [MapEntry.mk "#text" (.str (pyStrip (x.getD "")))]
          ++ buildChildrenDict [] (encodeChildren cs)
          = MapEntry.mk "@attributes" (.map (a.map (fun kv => .mk kv.1 (.str kv.2))))
            :: MapEntry.mk "#text" (.str (pyStrip (x.getD "")))
            :: buildChildrenDict [] (encodeChildren cs) := by simp
      rw [hshape]
      have g1 : getEV (MapEntry.mk "@attributes" (.map (a.map (fun kv => .mk kv.1 (.str kv.2))))
          :: MapEntry.mk "#text" (.str (pyStrip (x.getD "")))
          :: buildChildrenDict [] (encodeChildren cs)) "@attributes"
          = some (.map (a.map (fun kv => .mk kv.1 (.str kv.2)))) := by
        simp [getEV]
      have g2 : getEV (MapEntry.mk "@attributes" (.map (a.map (fun kv => .mk kv.1 (.str kv.2))))
          :: MapEntry.mk "#text" (.str (pyStrip (x.getD "")))
          :: buildChildrenDict [] (encodeChildren cs)) "#text"
          = some (.str (pyStrip (x.getD ""))) := by
        simp [getEV]
      simp only [build_element, g1, g2, Option.map_some]
      rw [buildEntries_cons_skip _ _ _ (Or.inl rfl), buildEntries_cons_skip _ _ _ (Or.inr rfl),
        hEnt, attrs_roundtrip a]
      simp [trimText, hX, pyStr]
    · have hX' : isNonBlank x = false := by simpa using hX
      have hdisj : ∀ e ∈ buildChildrenDict [] (encodeChildren cs),
          getEV [MapEntry.mk "@attributes" (.map (a.map (fun kv => .mk kv.1 (.str kv.2))))]
            e.key = none := by
        intro e he
        have h1 : ("@attributes" == e.key) = false := by
          simp only [beq_eq_false_iff_ne]
          exact fun hc => (hcdkeys e he).1 hc.symm
        simp [getEV, h1]
      simp only [hA', Bool.false_eq_true, if_false, hX', List.append_nil]
      rw [dictUpdateEV_disjoint _ _ hdisj hnodupcd, List.singleton_append]
      have g1 : getEV (MapEntry.mk "@attributes" (.map (a.map (fun kv => .mk kv.1 (.str kv.2))))
          :: buildChildrenDict [] (encodeChildren cs)) "@attributes"
          = some (.map (a.map (fun kv => .mk kv.1 (.str kv.2)))) := by
        simp [getEV]
      have g2 : getEV (MapEntry.mk "@attributes" (.map (a.map (fun kv => .mk kv.1 (.str kv.2))))
          :: buildChildrenDict [] (encodeChildren cs)) "#text" = none := by
        simp [getEV, hcd_text]
      simp only [build_element, g1, g2, Option.map_none]
      rw [buildEntries_cons_skip _ _ _ (Or.inl rfl), hEnt, attrs_roundtrip a]
      simp [trimText, hX']

mutual
theorem rebuild : ∀ (n : Node), roundTripSafe n = true →
    build_element n.tag (xml_to_dict n) = trimNode n
  | .mk t a x cs, h => by
    obtain ⟨hne, hnk, hres, hgrp, hsafeL⟩ := roundTripSafe_parts t a x cs h
    have hbuild := rebuild_list cs hsafeL
    show build_element t (xml_to_dict (.mk t a x cs)) = .mk t a (trimText x) (trimNodeList cs)
    by_cases hscalar : (isNonBlank x && cs.isEmpty && a.isEmpty) = true
    · have hparts := hscalar
      simp only [Bool.and_eq_true] at hparts
      have hx : isNonBlank x = true := hparts.1.1
      have hcs : cs = [] := by simpa using hparts.1.2
      have ha : a = [] := by simpa using hparts.2
      have hxd : xml_to_dict (.mk t a x cs) = .str (pyStrip (x.getD "")) := by
        simp [xml_to_dict, hscalar]
      rw [hxd, ha, hcs]
      show Node.mk t [] (some (pyStr (.str (pyStrip (x.getD ""))))) []
          = Node.mk t [] (trimText x) (trimNodeList [])
      simp [trimText, hx, trimNodeList, pyStr]
    · have hscalar' : (isNonBlank x && cs.isEmpty && a.isEmpty) = false := by simpa using hscalar
      have hxd : xml_to_dict (.mk t a x cs) = .map (dictUpdateEV
          ((if a.isEmpty then [] else
              [.mk "@attributes" (.map (a.map (fun kv => .mk kv.1 (.str kv.2))))]) ++
           (if isNonBlank x then [.mk "#text" (.str (pyStrip (x.getD "")))] else []))
          (buildChildrenDict [] (encodeChildren cs))) := by
        by_cases hE : ((buildChildrenDict [] (encodeChildren cs)).isEmpty && !isNonBlank x)
            = true
        · by_cases hA : a.isEmpty = true
          · exfalso
            have hEparts := hE
            simp only [Bool.and_eq_true] at hEparts
            have hcs0 : cs = [] := buildChildrenDict_empty cs hEparts.1
            have hx0 : isNonBlank x = false := by simpa using hEparts.2
            rw [hA, hx0, hcs0] at hne
            simp at hne
          · have hA' : a.isEmpty = false := by simpa using hA
            simp [xml_to_dict, hscalar', hE, hA']
        · have hE' : ((buildChildrenDict [] (encodeChildren cs)).isEmpty && !isNonBlank x)
              = false := by simpa using hE
          simp [xml_to_dict, hscalar', hE']
      rw [hxd]
      exact build_map_result t a x cs hres hgrp hbuild
theorem rebuild_list : ∀ (cs : List Node), roundTripSafeList cs = true →
    ∀ c ∈ cs, build_element c.tag (xml_to_dict c) = trimNode c
  | [], _, c, hm => absurd hm (by simp)
  | c0 :: rest, h, c, hm => by
    have hh : roundTripSafe c0 = true ∧ roundTripSafeList rest = true := by
      simpa [roundTripSafeList, Bool.and_eq_true] using h
    rcases List.mem_cons.mp hm with heq | hmem
    · subst heq
      exact rebuild c hh.1
    · exact rebuild_list rest hh.2 c hmem
end

/-- Counterexample to claim C3: the round trip does not hold for a
self-closing element with no attributes, text or children — toMap encodes it
as the empty marker None and fromMap renders str(None), giving text "None".
A second failure outside the claim's stated exclusion: interleaved same-tag
children are regrouped by tag, changing child order. -/
theorem C3_counterexample_roundtrip :
    compare_xml_elements
        (dict_to_xml (xml_to_dict (.mk "empty" [] none [])) "empty")
        (.mk "empty" [] none []) = false ∧
    dict_to_xml (xml_to_dict (.mk "empty" [] none [])) "empty"
      = Node.mk "empty" [] (some "None") [] ∧
    compare_xml_elements
        (dict_to_xml (xml_to_dict (.mk "a" [] none
          [.mk "b" [] (some "1") [], .mk "c" [] (some "2") [], .mk "b" [] (some "3") []])) "a")
        (.mk "a" [] none
          [.mk "b" [] (some "1") [], .mk "c" [] (some "2") [], .mk "b" [] (some "3") []])
      = false :=
  ⟨by decide, rfl, by decide⟩

/-- Claim C3 (amended): fromMap(toMap(T), T.tag) is structurally equal to T
for every tree in which each node has at least one of attributes, non-blank
text or children (no self-closing empty elements: those encode as the empty
marker and come back with text "None"), same-tag children are contiguous
(toMap groups children by tag, so interleavings are reordered), no child tag
is one of the reserved keys "@attributes" and "#text", and attribute keys
are duplicate free. -/
theorem C3_roundtrip_for_safe_trees (T : Node) (h : roundTripSafe T = true) :
    compare_xml_elements (dict_to_xml (xml_to_dict T) T.tag) T = true := by
  unfold dict_to_xml
  rw [rebuild T h]
  exact compare_trim T h

theorem C3_roundtrip_for_safe_trees_witness :
    roundTripSafe
        (.mk "book" [("id", "1")] none
          [.mk "title" [] (some "T") [],
           .mk "chapter" [] (some " one ") [], .mk "chapter" [] (some "two") [],
           .mk "misc" [("k", "v")] (some "mixed") [.mk "leaf" [] (some "L") []]])
      = true ∧
    compare_xml_elements
        (dict_to_xml
          (xml_to_dict
            (.mk "book" [("id", "1")] none
              [.mk "title" [] (some "T") [],
               .mk "chapter" [] (some " one ") [], .mk "chapter" [] (some "two") [],
               .mk "misc" [("k", "v")] (some "mixed") [.mk "leaf" [] (some "L") []]]))
          (Node.mk "book" [("id", "1")] none
            [.mk "title" [] (some "T") [],
             .mk "chapter" [] (some " one ") [], .mk "chapter" [] (some "two") [],
             .mk "misc" [("k", "v")] (some "mixed") [.mk "leaf" [] (some "L") []]]).tag)
        (.mk "book" [("id", "1")] none
          [.mk "title" [] (some "T") [],
           .mk "chapter" [] (some " one ") [], .mk "chapter" [] (some "two") [],
           .mk "misc" [("k", "v")] (some "mixed") [.mk "leaf" [] (some "L") []]])
      = true :=
  ⟨by decide,
   C3_roundtrip_for_safe_trees
     (.mk "book" [("id", "1")] none
       [.mk "title" [] (some "T") [],
        .mk "chapter" [] (some " one ") [], .mk "chapter" [] (some "two") [],
        .mk "misc" [("k", "v")] (some "mixed") [.mk "leaf" [] (some "L") []]])
     (by decide)⟩

/-!
Claim C8 — path uniqueness.  The development shows each path segment
determines the (tag, sibling-rank) pair, that segments of distinct children
of one parent differ, and that joining non-empty slash-free segments with
"/" is injective.
-/

theorem decCharsCore_eq_decChars : ∀ (n : Nat), ∀ (fuel : Nat), n < fuel →
    decCharsCore fuel n = decChars n := by
  intro n
  induction n using Nat.strong_induction_on with
  | _ n ih =>
    intro fuel hf
    match fuel, hf with
    | f + 1, hf =>
      show decCharsCore (f + 1) n = decCharsCore (n + 1) n
      simp only [decCharsCore]
      by_cases h10 : n < 10
      · simp [h10]
      · simp only [h10, if_false]
        have hd : n / 10 < n := Nat.div_lt_self (by omega) (by omega)
        rw [ih (n / 10) hd f (by omega), ih (n / 10) hd n hd]

theorem decChars_eq (n : Nat) : decChars n
    = if n < 10 then [digitChar n] else decChars (n / 10) ++ [digitChar (n % 10)] := by
  show decCharsCore (n + 1) n = _
  simp only [decCharsCore]
  by_cases h10 : n < 10
  · simp [h10]
  · simp only [h10, if_false]
    have hd : n / 10 < n := Nat.div_lt_self (by omega) (by omega)
    rw [decCharsCore_eq_decChars (n / 10) n hd]

def digitVal (c : Char) : Nat := c.toNat - 48

def valueOfChars (l : List Char) : Nat := l.foldl (fun acc c => acc * 10 + digitVal c) 0

theorem valueOf_append_one (xs : List Char) (c : Char) :
    valueOfChars (xs ++ [c]) = valueOfChars xs * 10 + digitVal c := by
  unfold valueOfChars
  rw [List.foldl_append]
  rfl

theorem digitVal_digitChar (d : Nat) (hd : d < 10) : digitVal (digitChar d) = d := by
  interval_cases d <;> decide

theorem digitChar_range (d : Nat) (hd : d < 10) :
    48 ≤ (digitChar d).toNat ∧ (digitChar d).toNat ≤ 57 := by
  interval_cases d <;> decide

theorem valueOf_decChars : ∀ (n : Nat), valueOfChars (decChars n) = n := by
  intro n
  induction n using Nat.strong_induction_on with
  | _ n ih =>
    rw [decChars_eq]
    by_cases h10 : n < 10
    · simp only [h10, if_true]
      have : valueOfChars [digitChar n] = digitVal (digitChar n) := by
        unfold valueOfChars
        simp [List.foldl]
      rw [this, digitVal_digitChar n h10]
    · simp only [h10, if_false]
      have hd : n / 10 < n := Nat.div_lt_self (by omega) (by omega)
      rw [valueOf_append_one, ih (n / 10) hd, digitVal_digitChar (n % 10) (by omega)]
      omega

theorem decChars_inj (m n : Nat) (h : decChars m = decChars n) : m = n := by
  have := congrArg valueOfChars h
  rwa [valueOf_decChars, valueOf_decChars] at this

theorem decChars_digits : ∀ (n : Nat), ∀ c ∈ decChars n, 48 ≤ c.toNat ∧ c.toNat ≤ 57 := by
  intro n
  induction n using Nat.strong_induction_on with
  | _ n ih =>
    intro c hc
    rw [decChars_eq] at hc
    by_cases h10 : n < 10
    · simp only [h10, if_true] at hc
      have : c = digitChar n := by simpa using hc
      rw [this]
      exact digitChar_range n h10
    · simp only [h10, if_false] at hc
      have hd : n / 10 < n := Nat.div_lt_self (by omega) (by omega)
      rcases List.mem_append.mp hc with h1 | h2
      · exact ih (n / 10) hd c h1
      · have : c = digitChar (n % 10) := by simpa using h2
        rw [this]
        exact digitChar_range (n % 10) (by omega)

theorem decChars_ne_nil (n : Nat) : decChars n ≠ [] := by
  rw [decChars_eq]
  by_cases h10 : n < 10
  · simp [h10]
  · simp [h10]

theorem append_marker_inj (m : Char) : ∀ (a b r s : List Char),
    (∀ c ∈ a, c ≠ m) → (∀ c ∈ b, c ≠ m) →
    a ++ m :: r = b ++ m :: s → a = b ∧ r = s
  | [], [], r, s, _, _, h => ⟨rfl, by simpa using h⟩
  | [], x :: b, r, s, _, hb, h => by
    exfalso
    have h1 : m = x := by
      have := congrArg (fun l => l.headD m) h
      simpa using this
    exact hb x (by simp) h1.symm
  | x :: a, [], r, s, ha, _, h => by
    exfalso
    have h1 : x = m := by
      have := congrArg (fun l => l.headD m) h
      simpa using this
    exact ha x (by simp) h1
  | x :: a, y :: b, r, s, ha, hb, h => by
    have h1 : x = y := by
      have := congrArg (fun l => l.headD m) h
      simpa using this
    have h2 : a ++ m :: r = b ++ m :: s := by
      have := congrArg List.tail h
      simpa using this
    obtain ⟨hab, hrs⟩ := append_marker_inj m a b r s
      (fun c hc => ha c (by simp [hc])) (fun c hc => hb c (by simp [hc])) h2
    exact ⟨by rw [h1, hab], hrs⟩

theorem data_nil_eq (t : String) (h : t.data = []) : t = "" := by
  cases t with
  | mk l =>
    simp only at h
    rw [h]

theorem tagOk_wf (t : String) (h : tagOk t = true) :
    t.data ≠ [] ∧ ∀ c ∈ t.data, c ≠ '[' ∧ c ≠ '/' := by
  have hh : t.isEmpty = false ∧ t.data.all tagOkChar = true := by
    simpa [tagOk, Bool.and_eq_true] using h
  constructor
  · intro hnil
    have : t = "" := data_nil_eq t hnil
    rw [this] at hh
    exact absurd hh.1 (by decide)
  · intro c hc
    have := List.all_eq_true.mp hh.2 c hc
    have h2 : (c != '[') = true ∧ (c != '/') = true := by
      simpa [tagOkChar, Bool.and_eq_true] using this
    exact ⟨by simpa using h2.1, by simpa using h2.2⟩

theorem seg_bracket_data (t : String) (k : Nat) :
    (t ++ "[" ++ natStr k ++ "]").data = t.data ++ '[' :: (decChars k ++ [']']) := by
  simp [String.data_append, natStr]

theorem digit_ne_slash (c : Char) (h : 48 ≤ c.toNat ∧ c.toNat ≤ 57) : c ≠ '/' := by
  intro he
  rw [he] at h
  exact absurd h.1 (by decide)

theorem digit_ne_bracket (c : Char) (h : 48 ≤ c.toNat ∧ c.toNat ≤ 57) : c ≠ '[' := by
  intro he
  rw [he] at h
  exact absurd h.2 (by decide)

theorem segOf_some (p : Node) (i : Nat) (cur : Node) (h : p.children[i]? = some cur) :
    segOf p i = (if (p.children.filter (fun e => e.tag == cur.tag)).length > 1
      then cur.tag ++ "["
        ++ natStr ((p.children.take i).countP (fun e => e.tag == cur.tag) + 1) ++ "]"
      else cur.tag) := by
  simp [segOf, h]

theorem segOf_wf (p : Node) (i : Nat) (cur : Node) (h : p.children[i]? = some cur)
    (ht : tagOk cur.tag = true) :
    (segOf p i).data ≠ [] ∧ ∀ c ∈ (segOf p i).data, c ≠ '/' := by
  obtain ⟨htne, htc⟩ := tagOk_wf cur.tag ht
  rw [segOf_some p i cur h]
  by_cases hb : (p.children.filter (fun e => e.tag == cur.tag)).length > 1
  · simp only [hb, if_true]
    rw [show (cur.tag ++ "["
        ++ natStr ((p.children.take i).countP (fun e => e.tag == cur.tag) + 1) ++ "]")
        = cur.tag ++ "["
        ++ natStr ((p.children.take i).countP (fun e => e.tag == cur.tag) + 1) ++ "]" from rfl]
    constructor
    · rw [seg_bracket_data]
      intro hnil
      simp at hnil
    · intro c hc
      rw [seg_bracket_data] at hc
      rcases List.mem_append.mp hc with h1 | h2
      · exact (htc c h1).2
      · rcases List.mem_cons.mp h2 with h3 | h4
        · rw [h3]; decide
        · rcases List.mem_append.mp h4 with h5 | h6
          · exact digit_ne_slash c (decChars_digits _ c h5)
          · have : c = ']' := by simpa using h6
            rw [this]; decide
  · simp only [hb, if_false]
    exact ⟨htne, fun c hc => (htc c hc).2⟩

theorem getElem?_lt_length {α : Type} : ∀ (l : List α) (i : Nat) (a : α),
    l[i]? = some a → i < l.length
  | [], i, a, h => by simp at h
  | x :: rest, 0, a, _ => by simp
  | x :: rest, i + 1, a, h => by
    have := getElem?_lt_length rest i a (by simpa using h)
    simp only [List.length_cons]
    omega

theorem countP_take_succ (l : List Node) (i : Nat) (c : Node) (h : l[i]? = some c)
    (pr : Node → Bool) (hc : pr c = true) :
    (l.take (i + 1)).countP pr = (l.take i).countP pr + 1 := by
  rw [List.take_succ, h]
  simp [List.countP_append, List.countP_cons, hc]

theorem countP_take_mono (l : List Node) (pr : Node → Bool) (k m : Nat) (h : k ≤ m) :
    (l.take k).countP pr ≤ (l.take m).countP pr := by
  have hm : m = k + (m - k) := by omega
  rw [hm, List.take_add, List.countP_append]
  omega

theorem segOf_inj (p : Node) (i j : Nat) (ci cj : Node)
    (hi : p.children[i]? = some ci) (hj : p.children[j]? = some cj)
    (htags : ∀ c ∈ p.children, tagOk c.tag = true)
    (hij : i < j) : segOf p i ≠ segOf p j := by
  have hti : tagOk ci.tag = true := htags ci (mem_of_getElem?' _ i ci hi)
  have htj : tagOk cj.tag = true := htags cj (mem_of_getElem?' _ j cj hj)
  obtain ⟨htine, htic⟩ := tagOk_wf ci.tag hti
  obtain ⟨htjne, htjc⟩ := tagOk_wf cj.tag htj
  rw [segOf_some p i ci hi, segOf_some p j cj hj]
  by_cases htag : ci.tag = cj.tag
  · have hjlen : j < p.children.length := getElem?_lt_length _ j cj hj
    have hstep_i : (p.children.take (i + 1)).countP (fun e => e.tag == ci.tag)
        = (p.children.take i).countP (fun e => e.tag == ci.tag) + 1 :=
      countP_take_succ _ i ci hi _ (by simp)
    have hstep_j : (p.children.take (j + 1)).countP (fun e => e.tag == ci.tag)
        = (p.children.take j).countP (fun e => e.tag == ci.tag) + 1 :=
      countP_take_succ _ j cj hj _ (by simp [htag])
    have hmono1 : (p.children.take (i + 1)).countP (fun e => e.tag == ci.tag)
        ≤ (p.children.take j).countP (fun e => e.tag == ci.tag) :=
      countP_take_mono _ _ _ _ (by omega)
    have hmono2 : (p.children.take (j + 1)).countP (fun e => e.tag == ci.tag)
        ≤ (p.children.take p.children.length).countP (fun e => e.tag == ci.tag) :=
      countP_take_mono _ _ _ _ (by omega)
    have hfl : (p.children.filter (fun e => e.tag == ci.tag)).length
        = (p.children.take p.children.length).countP (fun e => e.tag == ci.tag) := by
      rw [List.take_length, ← List.countP_eq_length_filter]
    have hgt : (p.children.filter (fun e => e.tag == ci.tag)).length > 1 := by omega
    rw [← htag]
    rw [if_pos hgt, if_pos hgt]
    intro he
    have hd := congrArg String.data he
    rw [seg_bracket_data, seg_bracket_data] at hd
    have hcancel := List.append_cancel_left hd
    have hdig : decChars ((p.children.take i).countP (fun e => e.tag == ci.tag) + 1) ++ [']']
        = decChars ((p.children.take j).countP (fun e => e.tag == ci.tag) + 1) ++ [']'] := by
      injection hcancel
    have hdig2 := List.append_cancel_right hdig
    have := decChars_inj _ _ hdig2
    omega
  · have htag' : ci.tag ≠ cj.tag := htag
    by_cases hbi : (p.children.filter (fun e => e.tag == ci.tag)).length > 1 <;>
      by_cases hbj : (p.children.filter (fun e => e.tag == cj.tag)).length > 1
    · rw [if_pos hbi, if_pos hbj]
      intro he
      have hd := congrArg String.data he
      rw [seg_bracket_data, seg_bracket_data] at hd
      obtain ⟨hab, _⟩ := append_marker_inj '[' ci.tag.data cj.tag.data _ _
        (fun c hc => (htic c hc).1) (fun c hc => (htjc c hc).1) hd
      exact htag' (String.ext hab)
    · rw [if_pos hbi, if_neg hbj]
      intro he
      have hd := congrArg String.data he
      rw [seg_bracket_data] at hd
      have hmem : '[' ∈ cj.tag.data := by
        rw [← hd]
        exact List.mem_append_right _ (by simp)
      exact (htjc '[' hmem).1 rfl
    · rw [if_neg hbi, if_pos hbj]
      intro he
      have hd := congrArg String.data he
      rw [seg_bracket_data] at hd
      have hmem : '[' ∈ ci.tag.data := by
        rw [hd]
        exact List.mem_append_right _ (by simp)
      exact (htic '[' hmem).1 rfl
    · rw [if_neg hbi, if_neg hbj]
      exact fun he => htag' he

theorem tagsOkList_mem : ∀ (cs : List Node), tagsOkList cs = true → ∀ c ∈ cs, tagsOk c = true
  | [], _, c, hm => absurd hm (by simp)
  | c0 :: rest, h, c, hm => by
    have hh : tagsOk c0 = true ∧ tagsOkList rest = true := by
      simpa [tagsOkList, Bool.and_eq_true] using h
    rcases List.mem_cons.mp hm with heq | hmem
    · rw [heq]; exact hh.1
    · exact tagsOkList_mem rest hh.2 c hmem

theorem tagsOk_parts : ∀ (n : Node), tagsOk n = true →
    tagOk n.tag = true ∧ ∀ c ∈ n.children, tagsOk c = true
  | .mk t a x cs, h => by
    have hh : tagOk t = true ∧ tagsOkList cs = true := by
      simpa [tagsOk, Bool.and_eq_true] using h
    exact ⟨hh.1, tagsOkList_mem cs hh.2⟩

theorem tagsOk_child (n c : Node) (i : Nat) (h : tagsOk n = true)
    (hg : n.children[i]? = some c) : tagsOk c = true :=
  (tagsOk_parts n h).2 c (mem_of_getElem?' _ i c hg)

theorem claimSegs_ne : ∀ (p q : List Nat) (root : Node),
    tagsOk root = true → validPos root p = true → validPos root q = true → p ≠ q →
    claimSegs root p ≠ claimSegs root q
  | [], [], _, _, _, _, hne => absurd rfl hne
  | [], j :: q', root, _, _, hq, _ => by
    cases hg : root.children[j]? with
    | none => simp [validPos, hg] at hq
    | some c => simp [claimSegs, hg]
  | i :: p', [], root, _, hp, _, _ => by
    cases hg : root.children[i]? with
    | none => simp [validPos, hg] at hp
    | some c => simp [claimSegs, hg]
  | i :: p', j :: q', root, htags, hp, hq, hne => by
    cases hgi : root.children[i]? with
    | none => simp [validPos, hgi] at hp
    | some ci =>
      cases hgj : root.children[j]? with
      | none => simp [validPos, hgj] at hq
      | some cj =>
        have hp' : validPos ci p' = true := by simpa [validPos, hgi] using hp
        have hq' : validPos cj q' = true := by simpa [validPos, hgj] using hq
        by_cases hij : i = j
        · subst hij
          have hcc : ci = cj := by
            rw [hgi] at hgj
            simpa using hgj
          subst hcc
          have hne' : p' ≠ q' := fun he => hne (by rw [he])
          have ih := claimSegs_ne p' q' ci (tagsOk_child root ci i htags hgi) hp' hq' hne'
          intro he
          have he2 : claimSegs ci p' = claimSegs ci q' := by
            have := he
            simp only [claimSegs, hgi] at this
            exact (List.cons.injEq _ _ _ _).mp this |>.2
          exact ih he2
        · intro he
          have hheads : segOf root i = segOf root j := by
            have := he
            simp only [claimSegs, hgi, hgj] at this
            exact (List.cons.injEq _ _ _ _).mp this |>.1
          have hchild := (tagsOk_parts root htags).2
          have htagok : ∀ c ∈ root.children, tagOk c.tag = true :=
            fun c hc => (tagsOk_parts c (hchild c hc)).1
          rcases Nat.lt_or_ge i j with hlt | hge
          · exact segOf_inj root i j ci cj hgi hgj htagok hlt hheads
          · have hlt2 : j < i := by omega
            exact segOf_inj root j i cj ci hgj hgi htagok hlt2 hheads.symm

theorem claimSegs_wf : ∀ (pos : List Nat) (root : Node), tagsOk root = true →
    ∀ s ∈ claimSegs root pos, s.data ≠ [] ∧ ∀ c ∈ s.data, c ≠ '/'
  | [], _, _, s, hm => absurd hm (by simp [claimSegs])
  | i :: rest, root, ht, s, hm => by
    cases hg : root.children[i]? with
    | none => simp [claimSegs, hg] at hm
    | some c =>
      simp only [claimSegs, hg] at hm
      rcases List.mem_cons.mp hm with heq | hmem
      · rw [heq]
        exact segOf_wf root i c hg (tagsOk_parts c (tagsOk_child root c i ht hg)).1
      · exact claimSegs_wf rest c (tagsOk_child root c i ht hg) s hmem

theorem joinSlash_data_cons2 (p q : String) (rest : List String) :
    (joinSlash (p :: q :: rest)).data = p.data ++ '/' :: (joinSlash (q :: rest)).data := by
  show (p ++ "/" ++ joinSlash (q :: rest)).data = _
  simp [String.data_append]

theorem joinSlash_inj : ∀ (P Q : List String),
    (∀ s ∈ P, s.data ≠ [] ∧ ∀ c ∈ s.data, c ≠ '/') →
    (∀ s ∈ Q, s.data ≠ [] ∧ ∀ c ∈ s.data, c ≠ '/') →
    joinSlash P = joinSlash Q → P = Q
  | [], [], _, _, _ => rfl
  | [], q :: Q, _, hQ, h => by
    exfalso
    cases Q with
    | nil =>
      have hd := congrArg String.data h
      exact (hQ q (by simp)).1 (by simpa using hd.symm)
    | cons q2 Q' =>
      have hd := congrArg String.data h
      rw [joinSlash_data_cons2] at hd
      have : ([] : List Char) = q.data ++ '/' :: (joinSlash (q2 :: Q')).data := hd
      exact absurd this.symm (by simp)
  | p :: P, [], hP, _, h => by
    exfalso
    cases P with
    | nil =>
      have hd := congrArg String.data h
      exact (hP p (by simp)).1 (by simpa using hd)
    | cons p2 P' =>
      have hd := congrArg String.data h
      rw [joinSlash_data_cons2] at hd
      have : p.data ++ '/' :: (joinSlash (p2 :: P')).data = ([] : List Char) := hd
      exact absurd this (by simp)
  | [p], [q], _, _, h => by
    have hpq : p = q := h
    rw [hpq]
  | [p], q :: q2 :: Q', hP, _, h => by
    exfalso
    have hd := congrArg String.data h
    rw [joinSlash_data_cons2] at hd
    have hmem : '/' ∈ p.data := by
      have hd2 : p.data = q.data ++ '/' :: (joinSlash (q2 :: Q')).data := hd
      rw [hd2]
      exact List.mem_append_right _ (by simp)
    exact (hP p (by simp)).2 '/' hmem rfl
  | p :: p2 :: P', [q], _, hQ, h => by
    exfalso
    have hd := congrArg String.data h
    rw [joinSlash_data_cons2] at hd
    have hmem : '/' ∈ q.data := by
      have hd2 : q.data = p.data ++ '/' :: (joinSlash (p2 :: P')).data := hd.symm
      rw [hd2]
      exact List.mem_append_right _ (by simp)
    exact (hQ q (by simp)).2 '/' hmem rfl
  | p :: p2 :: P', q :: q2 :: Q', hP, hQ, h => by
    have hd := congrArg String.data h
    rw [joinSlash_data_cons2, joinSlash_data_cons2] at hd
    obtain ⟨h1, h2⟩ := append_marker_inj '/' p.data q.data _ _
      ((hP p (by simp)).2) ((hQ q (by simp)).2) hd
    have hpq : p = q := String.ext h1
    have hJ : joinSlash (p2 :: P') = joinSlash (q2 :: Q') := String.ext h2
    have hrest := joinSlash_inj (p2 :: P') (q2 :: Q')
      (fun s hm => hP s (by simp [List.mem_cons.mp hm])) 
      (fun s hm => hQ s (by simp [List.mem_cons.mp hm])) hJ
    rw [hpq, hrest]

/-- Claim C8: paths are unique — for every tree with legal XML tag names
(non-empty, free of the bracket and slash characters, true of every real
document) and every two distinct attached nodes, get_element_path yields
different strings. -/
theorem C8_path_uniqueness (root : Node) (p q : List Nat) (hw : tagsOk root = true)
    (hp : validPos root p = true) (hq : validPos root q = true) (hne : p ≠ q) :
    get_element_path root p ≠ get_element_path root q := by
  intro he
  have e1 : get_element_path root p = "/" ++ joinSlash (root.tag :: claimSegs root p) := by
    unfold get_element_path
    rw [partsRev_spec p root hp]
  have e2 : get_element_path root q = "/" ++ joinSlash (root.tag :: claimSegs root q) := by
    unfold get_element_path
    rw [partsRev_spec q root hq]
  rw [e1, e2] at he
  have hd := congrArg String.data he
  rw [String.data_append, String.data_append] at hd
  have hd2 : (joinSlash (root.tag :: claimSegs root p)).data
      = (joinSlash (root.tag :: claimSegs root q)).data := by
    have : ('/' : Char) :: (joinSlash (root.tag :: claimSegs root p)).data
        = ('/' : Char) :: (joinSlash (root.tag :: claimSegs root q)).data := hd
    injection this
  have hroot_wf : (root.tag).data ≠ [] ∧ ∀ c ∈ (root.tag).data, c ≠ '/' := by
    obtain ⟨h1, h2⟩ := tagOk_wf root.tag (tagsOk_parts root hw).1
    exact ⟨h1, fun c hc => (h2 c hc).2⟩
  have hwP : ∀ s ∈ root.tag :: claimSegs root p, s.data ≠ [] ∧ ∀ c ∈ s.data, c ≠ '/' := by
    intro s hm
    rcases List.mem_cons.mp hm with heq | hmem
    · rw [heq]; exact hroot_wf
    · exact claimSegs_wf p root hw s hmem
  have hwQ : ∀ s ∈ root.tag :: claimSegs root q, s.data ≠ [] ∧ ∀ c ∈ s.data, c ≠ '/' := by
    intro s hm
    rcases List.mem_cons.mp hm with heq | hmem
    · rw [heq]; exact hroot_wf
    · exact claimSegs_wf q root hw s hmem
  have hlists := joinSlash_inj _ _ hwP hwQ (String.ext hd2)
  have hsegs : claimSegs root p = claimSegs root q := by injection hlists
  exact claimSegs_ne p q root hw hp hq hne hsegs

theorem C8_path_uniqueness_witness :
    tagsOk (.mk "root" [] none [.mk "item" [] (some "A") [], .mk "item" [] (some "B") []])
        = true ∧
    validPos (.mk "root" [] none [.mk "item" [] (some "A") [], .mk "item" [] (some "B") []])
        [0] = true ∧
    validPos (.mk "root" [] none [.mk "item" [] (some "A") [], .mk "item" [] (some "B") []])
        [1] = true ∧
    get_element_path
        (.mk "root" [] none [.mk "item" [] (some "A") [], .mk "item" [] (some "B") []]) [0]
      ≠ get_element_path
        (.mk "root" [] none [.mk "item" [] (some "A") [], .mk "item" [] (some "B") []]) [1] :=
  ⟨by decide, by decide, by decide,
   C8_path_uniqueness
     (.mk "root" [] none [.mk "item" [] (some "A") [], .mk "item" [] (some "B") []])
     [0] [1] (by decide) (by decide) (by decide) (by decide)⟩
